import Mathlib

/-!
Verification development for the thread-consolidation engine
(`backend/thread_consolidator.py`).

The Python source is shallowly embedded below:

* instants are `Nat` values counting microseconds from 0001-01-01 00:00:00,
  matching the precision of `datetime`; the comparison
  `abs(delta.total_seconds()) <= minutes*60` is exact at this scale and is
  modelled as `Nat.dist a b ≤ minutes * 60 * 1000000`;
* `datetime.now()` is modelled as an explicit parameter `now : Nat`
  (one clock reading per run);
* `datetime.strptime` is modelled, for the three fixed format strings the
  source uses, by hand-written parsers that follow CPython's `_strptime`
  field regexes (two-digit-or-one-digit numeric fields, case-insensitive
  names and literals, format-string whitespace matching one or more input
  whitespace characters, `%z` validated but discarded by
  `.replace(tzinfo=None)`, and construction-time range checks on seconds
  and day-of-month);
* Python's stable `list.sort` is modelled by `List.insertionSort`, which is
  stable and therefore produces the identical list;
* file I/O is out of scope: the CSV reader is modelled on an
  already-materialised list of input records.
-/

/-- ASCII whitespace stripped by Python's `str.strip()` / matched by `\s`
(the ASCII fragment; the source data is ASCII CSV text). -/
def isPySpace (c : Char) : Bool :=
  c == ' ' || c == '\t' || c == '\n' || c == '\r' || c == '\x0B' || c == '\x0C'

/-- Model of Python `str.strip()` (used on the `text` column). -/
def pyStrip (s : String) : String :=
  String.mk (((s.data.dropWhile isPySpace).reverse.dropWhile isPySpace).reverse)

/-- Numeric value of a digit character. -/
def digVal (c : Char) : Nat := c.toNat - 48

/-- A strptime numeric field: prefer two digits when their value passes
`ok2`, else one digit passing `ok1` (CPython builds these fields as regex
alternations such as `(3[01]|[12]\d|0[1-9]|[1-9])`, which try the two-digit
alternatives first). -/
def take2or1 (ok2 : Nat → Bool) (ok1 : Nat → Bool) : List Char → Option (Nat × List Char)
  | c1 :: c2 :: rest =>
    if c1.isDigit && c2.isDigit && ok2 (digVal c1 * 10 + digVal c2) then
      some (digVal c1 * 10 + digVal c2, rest)
    else if c1.isDigit && ok1 (digVal c1) then
      some (digVal c1, c2 :: rest)
    else none
  | [c1] => if c1.isDigit && ok1 (digVal c1) then some (digVal c1, []) else none
  | [] => none

/-- The strptime `%Y` field: exactly four digits. -/
def take4 : List Char → Option (Nat × List Char)
  | c1 :: c2 :: c3 :: c4 :: rest =>
    if c1.isDigit && c2.isDigit && c3.isDigit && c4.isDigit then
      some (((digVal c1 * 10 + digVal c2) * 10 + digVal c3) * 10 + digVal c4, rest)
    else none
  | _ => none

/-- The strptime `%f` field: one to six fraction digits, taken greedily and
right-padded to microseconds. -/
def takeFrac (cs : List Char) : Option (Nat × List Char) :=
  let digs := (cs.takeWhile Char.isDigit).take 6
  if digs.isEmpty then none
  else some (digs.foldl (fun a c => a * 10 + digVal c) 0 * 10 ^ (6 - digs.length),
             cs.drop digs.length)

/-- Lower-case an ASCII letter (strptime matches case-insensitively). -/
def lcase (c : Char) : Char :=
  if c.toNat ≥ 65 && c.toNat ≤ 90 then Char.ofNat (c.toNat + 32) else c

/-- Three leading characters plus the remainder. -/
def take3 : List Char → Option (Char × Char × Char × List Char)
  | a :: b :: c :: r => some (a, b, c, r)
  | _ => none

/-- The strptime `%a` field over the C locale: an abbreviated weekday name,
case-insensitive.  Its value is parsed and then ignored (strptime does not
check it against the date). -/
def isWeekdayAbbrev (a b c : Char) : Bool :=
  match (lcase a, lcase b, lcase c) with
  | ('m', 'o', 'n') => true
  | ('t', 'u', 'e') => true
  | ('w', 'e', 'd') => true
  | ('t', 'h', 'u') => true
  | ('f', 'r', 'i') => true
  | ('s', 'a', 't') => true
  | ('s', 'u', 'n') => true
  | _ => false

/-- The strptime `%b` field over the C locale: abbreviated month name,
case-insensitive. -/
def monthAbbrev (a b c : Char) : Option Nat :=
  match (lcase a, lcase b, lcase c) with
  | ('j', 'a', 'n') => some 1
  | ('f', 'e', 'b') => some 2
  | ('m', 'a', 'r') => some 3
  | ('a', 'p', 'r') => some 4
  | ('m', 'a', 'y') => some 5
  | ('j', 'u', 'n') => some 6
  | ('j', 'u', 'l') => some 7
  | ('a', 'u', 'g') => some 8
  | ('s', 'e', 'p') => some 9
  | ('o', 'c', 't') => some 10
  | ('n', 'o', 'v') => some 11
  | ('d', 'e', 'c') => some 12
  | _ => none

/-- Whitespace in a strptime format string matches one or more input
whitespace characters. -/
def skipWs : List Char → Option (List Char)
  | c :: rest => if isPySpace c then some (rest.dropWhile isPySpace) else none
  | [] => none

/-- A literal character of the format string (case-insensitive, since
CPython compiles the whole pattern with `re.IGNORECASE`). -/
def lit (c : Char) : List Char → Option (List Char)
  | d :: rest => if lcase d == lcase c then some rest else none
  | [] => none

/-- Optional fraction inside `%z`: `(\.\d{1,6})?`. -/
def tzFrac (cs : List Char) : List Char :=
  match cs with
  | '.' :: rest =>
    let digs := (rest.takeWhile Char.isDigit).take 6
    if digs.isEmpty then cs else rest.drop digs.length
  | _ => cs

/-- Optional seconds inside `%z`: `(:?[0-5]\d(\.\d{1,6})?)?`. -/
def tzSec (cs : List Char) : List Char :=
  match cs with
  | ':' :: d1 :: d2 :: rest =>
    if d1.isDigit && digVal d1 ≤ 5 && d2.isDigit then tzFrac rest else cs
  | d1 :: d2 :: rest =>
    if d1.isDigit && digVal d1 ≤ 5 && d2.isDigit then tzFrac rest else cs
  | _ => cs

/-- Minutes of a `%z` offset: `[0-5]\d` with optional trailing seconds. -/
def tzMin (cs : List Char) : Option (List Char) :=
  match cs with
  | d1 :: d2 :: rest =>
    if d1.isDigit && digVal d1 ≤ 5 && d2.isDigit then some (tzSec rest) else none
  | _ => none

/-- Hours of a `%z` offset: `\d\d` with optional colon before the minutes.
`timezone()` additionally requires the offset to be strictly below 24 hours,
so hour values 24-99 make the whole `strptime` call fail. -/
def tzBody (cs : List Char) : Option (List Char) :=
  match cs with
  | d1 :: d2 :: rest =>
    if d1.isDigit && d2.isDigit && digVal d1 * 10 + digVal d2 ≤ 23 then
      tzMin (match rest with | ':' :: r2 => r2 | _ => rest)
    else none
  | _ => none

/-- The strptime `%z` field: `Z` (case-sensitive) or a signed offset.  The
parsed offset is validated and then discarded, because the source calls
`.replace(tzinfo=None)` on the result, keeping the clock fields as written. -/
def takeTz : List Char → Option (List Char)
  | c :: rest =>
    if c == 'Z' then some rest
    else if c == '+' || c == '-' then tzBody rest
    else none
  | [] => none

/-- Proleptic-Gregorian leap-year test, as in Python's `calendar`. -/
def isLeapYear (y : Nat) : Bool := y % 4 == 0 && (y % 100 != 0 || y % 400 == 0)

/-- Length of month `m` (1-12). -/
def monthLength (leap : Bool) (m : Nat) : Nat :=
  if m == 2 then (if leap then 29 else 28)
  else if m == 4 || m == 6 || m == 9 || m == 11 then 30
  else 31

/-- Days in the proleptic Gregorian calendar strictly before year `y`. -/
def daysBeforeYear (y : Nat) : Nat :=
  365 * (y - 1) + (y - 1) / 4 + (y - 1) / 400 - (y - 1) / 100

/-- Days of year `y` strictly before month `m`. -/
def daysBeforeMonth (y m : Nat) : Nat :=
  (List.range (m - 1)).foldl (fun acc i => acc + monthLength (isLeapYear y) (i + 1)) 0

/-- Microseconds from 0001-01-01 00:00:00 to the given naive datetime. -/
def toInstant (y m d hh mi ss micro : Nat) : Nat :=
  ((daysBeforeYear y + daysBeforeMonth y m + (d - 1)) * 86400
    + hh * 3600 + mi * 60 + ss) * 1000000 + micro

/-- `datetime`'s constructor-level range checks that the field regexes do
not already enforce: the year must be at least `MINYEAR = 1` and the day
must exist in the given month. -/
def validDate (y m d : Nat) : Bool :=
  1 ≤ y && d ≤ monthLength (isLeapYear y) m

/-- The `%d` field: `(3[01]|[12]\d|0[1-9]|[1-9])`. -/
def takeDay : List Char → Option (Nat × List Char) :=
  take2or1 (fun v => v != 0 && decide (v ≤ 31)) (fun v => v != 0)

/-- The `%m` field: `(1[0-2]|0[1-9]|[1-9])`. -/
def takeMonth : List Char → Option (Nat × List Char) :=
  take2or1 (fun v => v != 0 && decide (v ≤ 12)) (fun v => v != 0)

/-- The `%H` field: `(2[0-3]|[0-1]\d|\d)`. -/
def takeHour : List Char → Option (Nat × List Char) :=
  take2or1 (fun v => decide (v ≤ 23)) (fun _ => true)

/-- The `%M` field: `([0-5]\d|\d)`. -/
def takeMinute : List Char → Option (Nat × List Char) :=
  take2or1 (fun v => decide (v ≤ 59)) (fun _ => true)

/-- The `%S` field: `(6[0-1]|[0-5]\d|\d)`; values 60 and 61 survive the
regex but make the `datetime` constructor raise, so they are rejected by
`validDate`-time checks below. -/
def takeSecond : List Char → Option (Nat × List Char) :=
  take2or1 (fun v => decide (v ≤ 61)) (fun _ => true)

/-- The `%H:%M:%S` part shared by all three formats.  Returns
`(hh, mi, ss, rest)`. -/
def takeHMS (cs : List Char) : Option (Nat × Nat × Nat × List Char) :=
  match takeHour cs with
  | none => none
  | some (hh, r0) =>
  match lit ':' r0 with
  | none => none
  | some r1 =>
  match takeMinute r1 with
  | none => none
  | some (mi, r2) =>
  match lit ':' r2 with
  | none => none
  | some r3 =>
  match takeSecond r3 with
  | none => none
  | some (ss, r4) => some (hh, mi, ss, r4)

/-- `datetime.strptime(s, "%a %b %d %H:%M:%S %z %Y").replace(tzinfo=None)`,
the TwitterAPI.io format, e.g. `Tue Aug 12 13:11:03 +0000 2025`. -/
def fmtTwitter (s : String) : Option Nat :=
  match take3 s.data with
  | none => none
  | some (a1, a2, a3, r0) =>
  if !isWeekdayAbbrev a1 a2 a3 then none else
  match skipWs r0 with
  | none => none
  | some r1 =>
  match take3 r1 with
  | none => none
  | some (b1, b2, b3, r2) =>
  match monthAbbrev b1 b2 b3 with
  | none => none
  | some m =>
  match skipWs r2 with
  | none => none
  | some r3 =>
  match takeDay r3 with
  | none => none
  | some (d, r4) =>
  match skipWs r4 with
  | none => none
  | some r5 =>
  match takeHMS r5 with
  | none => none
  | some (hh, mi, ss, r6) =>
  match skipWs r6 with
  | none => none
  | some r7 =>
  match takeTz r7 with
  | none => none
  | some r8 =>
  match skipWs r8 with
  | none => none
  | some r9 =>
  match take4 r9 with
  | none => none
  | some (y, r10) =>
  if r10.isEmpty && validDate y m d && decide (ss ≤ 59) then
    some (toInstant y m d hh mi ss 0)
  else none

/-- The common `%Y-%m-%dT%H:%M:%S` prefix of the two ISO formats.  Returns
`(y, m, d, hh, mi, ss, rest)`. -/
def takeIsoHead (cs : List Char) : Option (Nat × Nat × Nat × Nat × Nat × Nat × List Char) :=
  match take4 cs with
  | none => none
  | some (y, r0) =>
  match lit '-' r0 with
  | none => none
  | some r1 =>
  match takeMonth r1 with
  | none => none
  | some (m, r2) =>
  match lit '-' r2 with
  | none => none
  | some r3 =>
  match takeDay r3 with
  | none => none
  | some (d, r4) =>
  match lit 'T' r4 with
  | none => none
  | some r5 =>
  match takeHMS r5 with
  | none => none
  | some (hh, mi, ss, r6) => some (y, m, d, hh, mi, ss, r6)

/-- `datetime.strptime(s, "%Y-%m-%dT%H:%M:%S.%fZ")`, the ISO format with
fractional seconds, e.g. `2025-08-12T13:11:03.000Z`. -/
def fmtIsoFrac (s : String) : Option Nat :=
  match takeIsoHead s.data with
  | none => none
  | some (y, m, d, hh, mi, ss, r0) =>
  match lit '.' r0 with
  | none => none
  | some r1 =>
  match takeFrac r1 with
  | none => none
  | some (frac, r2) =>
  match lit 'Z' r2 with
  | none => none
  | some r3 =>
  if r3.isEmpty && validDate y m d && decide (ss ≤ 59) then
    some (toInstant y m d hh mi ss frac)
  else none

/-- `datetime.strptime(s, "%Y-%m-%dT%H:%M:%SZ")`, the ISO format without
fractional seconds, e.g. `2025-08-12T13:11:03Z`. -/
def fmtIsoNoFrac (s : String) : Option Nat :=
  match takeIsoHead s.data with
  | none => none
  | some (y, m, d, hh, mi, ss, r0) =>
  match lit 'Z' r0 with
  | none => none
  | some r1 =>
  if r1.isEmpty && validDate y m d && decide (ss ≤ 59) then
    some (toInstant y m d hh mi ss 0)
  else none

/-- `ThreadConsolidator._parse_timestamp`: try the three formats in priority
order, falling back to the current wall-clock time (the `now` parameter) on
an empty string or when no format parses.  Total by construction: the
Python code catches every `ValueError`, so the call never raises. -/
def parse_timestamp (now : Nat) (created_at : String) : Nat :=
  if created_at = "" then now
  else
    match fmtTwitter created_at with
    | some t => t
    | none =>
      match fmtIsoFrac created_at with
      | some t => t
      | none =>
        match fmtIsoNoFrac created_at with
        | some t => t
        | none => now

/-- One raw CSV record, as produced by `csv.DictReader` (§6 input shape). -/
structure Row where
  tweet_id : String
  created_at : String
  text : String
deriving DecidableEq, Repr

/-- One entry of the internal `tweets` list built by
`_read_tweets_from_csv`. -/
structure Tweet where
  id : String
  created_at : String
  text : String
  timestamp : Nat
deriving DecidableEq, Repr

/-- One consolidated output record built by `_create_consolidated_posts`. -/
structure CPost where
  tweet_id : String
  timestamp : String
  text : String
  is_thread : Bool
  thread_count : Nat
deriving DecidableEq, Repr

/-- The dict built for each CSV row in `_read_tweets_from_csv`. -/
def mkTweet (now : Nat) (r : Row) : Tweet :=
  { id := r.tweet_id
    created_at := r.created_at
    text := pyStrip r.text
    timestamp := parse_timestamp now r.created_at }

/-- The row filter `if tweet['id'] and tweet['text']`. -/
def tweetKeep (t : Tweet) : Bool := decide (t.id ≠ "" ∧ t.text ≠ "")

/-- Working order of `_read_tweets_from_csv`: newest first. -/
def tweetLeDesc (a b : Tweet) : Prop := b.timestamp ≤ a.timestamp

instance : DecidableRel tweetLeDesc := fun a b => Nat.decLe b.timestamp a.timestamp

instance : IsTotal Tweet tweetLeDesc := ⟨fun a b => Nat.le_total b.timestamp a.timestamp⟩

instance : IsTrans Tweet tweetLeDesc := ⟨fun _ _ _ h1 h2 => Nat.le_trans h2 h1⟩

/-- Chronological order used inside one thread. -/
def chronLe (a b : Tweet) : Prop := a.timestamp ≤ b.timestamp

instance : DecidableRel chronLe := fun a b => Nat.decLe a.timestamp b.timestamp

instance : IsTotal Tweet chronLe := ⟨fun a b => Nat.le_total a.timestamp b.timestamp⟩

instance : IsTrans Tweet chronLe := ⟨fun _ _ _ h1 h2 => Nat.le_trans h1 h2⟩

/-- `_read_tweets_from_csv` on an already-materialised list of records:
build the per-row dicts, drop rows with an empty id or an empty stripped
text, then stable-sort newest first. -/
def read_tweets (now : Nat) (rows : List Row) : List Tweet :=
  List.insertionSort tweetLeDesc ((rows.map (mkTweet now)).filter tweetKeep)

/-- The candidate set collected for an unclaimed anchor `t`: the anchor
followed by every later tweet that is unclaimed and within the window. -/
def candsOf (W : Nat) (cl : List String) (t : Tweet) (rest : List Tweet) : List Tweet :=
  t :: rest.filter (fun u => decide (u.id ∉ cl ∧ Nat.dist t.timestamp u.timestamp ≤ W))

/-- The loop body of `_detect_threads`: scan the working list in order; an
unclaimed tweet anchors a candidate set holding every unclaimed later tweet
within the window of the anchor; candidate sets of size two or more become
threads (sorted chronologically) and claim their members' ids. -/
def detectAux (W : Nat) : List Tweet → List String → List (List Tweet) →
    List (List Tweet) × List String
  | [], cl, acc => (acc, cl)
  | t :: rest, cl, acc =>
    if t.id ∈ cl then detectAux W rest cl acc
    else if 1 < (candsOf W cl t rest).length then
      detectAux W rest (cl ++ (candsOf W cl t rest).map (fun u => u.id))
        (acc ++ [List.insertionSort chronLe (candsOf W cl t rest)])
    else detectAux W rest cl acc

/-- `_detect_threads`: the threads in anchor order, and the standalone
tweets (those whose id was never claimed) in working order.  `W` is the
window in microseconds, i.e. `time_window_minutes * 60 * 1000000`. -/
def detect_threads (W : Nat) (tweets : List Tweet) : List (List Tweet) × List Tweet :=
  let r := detectAux W tweets [] []
  (r.1, tweets.filter (fun t => decide (t.id ∉ r.2)))

/-- The thread separator inserted between member texts. -/
def sepNl : String := "\n\n"

/-- The `combined_text` loop of `_create_consolidated_posts`. -/
def combineText : List Tweet → String
  | [] => String.mk []
  | t :: rest => rest.foldl (fun acc u => acc ++ sepNl ++ u.text) t.text

/-- One thread's consolidated record (`None` for the impossible empty
thread, which the Python loop skips with `continue`). -/
def mkThreadPost (th : List Tweet) : Option CPost :=
  match th with
  | [] => none
  | first :: _ =>
    some { tweet_id := first.id
           timestamp := first.created_at
           text := combineText th
           is_thread := true
           thread_count := th.length }

/-- One standalone tweet's consolidated record. -/
def mkStandalonePost (t : Tweet) : CPost :=
  { tweet_id := t.id
    timestamp := t.created_at
    text := t.text
    is_thread := false
    thread_count := 1 }

/-- Final output order: newest first by the re-parsed `timestamp` text. -/
def cpostLeDesc (now : Nat) (p q : CPost) : Prop :=
  parse_timestamp now q.timestamp ≤ parse_timestamp now p.timestamp

instance (now : Nat) : DecidableRel (cpostLeDesc now) :=
  fun p q => Nat.decLe (parse_timestamp now q.timestamp) (parse_timestamp now p.timestamp)

instance (now : Nat) : IsTotal CPost (cpostLeDesc now) :=
  ⟨fun p q => Nat.le_total (parse_timestamp now q.timestamp) (parse_timestamp now p.timestamp)⟩

instance (now : Nat) : IsTrans CPost (cpostLeDesc now) :=
  ⟨fun _ _ _ h1 h2 => Nat.le_trans h2 h1⟩

/-- `_create_consolidated_posts`: thread records first, then standalone
records, then a stable sort, newest first, keyed by re-parsing the emitted
timestamp text with `_parse_timestamp`. -/
def create_consolidated_posts (now : Nat) (threads : List (List Tweet))
    (standalone : List Tweet) : List CPost :=
  List.insertionSort (cpostLeDesc now)
    (threads.filterMap mkThreadPost ++ standalone.map mkStandalonePost)

/-- The in-memory pipeline of `process_csv`: read and filter, detect
threads, consolidate.  `winMin` is `time_window_minutes` (default 2). -/
def consolidate (now : Nat) (winMin : Nat) (rows : List Row) : List CPost :=
  let tweets := read_tweets now rows
  let td := detect_threads (winMin * 60 * 1000000) tweets
  create_consolidated_posts now td.1 td.2

/-- The exact message of the exception `process_csv` raises on empty
input. -/
def noDataMsg : String := "No tweets found in CSV file"

/-- `process_csv` up to (excluded) file output: raises the "no data"
exception when no row survives the id/text filter, otherwise returns the
consolidated posts. -/
def process_posts (now : Nat) (winMin : Nat) (rows : List Row) :
    Except String (List CPost) :=
  if (read_tweets now rows).isEmpty then Except.error noDataMsg
  else Except.ok (consolidate now winMin rows)

/-! ### Generic list lemmas -/

/-- `orderedInsert` by a `Nat` key never reorders elements of equal key:
filtering any fixed key value out of the result is the same as filtering it
out of the element consed in front. -/
theorem filter_key_orderedInsert {α : Type} (r : α → α → Prop) [DecidableRel r]
    (key : α → Nat) (hr : ∀ x y, r x y ↔ key y ≤ key x) (k : Nat) (a : α)
    (l : List α) :
    (List.orderedInsert r a l).filter (fun x => decide (key x = k))
      = (a :: l).filter (fun x => decide (key x = k)) := by
  induction l with
  | nil => rfl
  | cons b t ih =>
    by_cases hab : r a b
    · simp only [List.orderedInsert, if_pos hab]
    · have hlt : key a < key b := Nat.not_le.mp (fun h => hab ((hr a b).mpr h))
      simp only [List.orderedInsert, if_neg hab, List.filter_cons,
        decide_eq_true_eq] at ih ⊢
      by_cases hbk : key b = k
      · have hak : ¬ key a = k := by omega
        simp only [if_pos hbk, if_neg hak] at ih ⊢
        rw [ih]
      · by_cases hak : key a = k
        · simp only [if_neg hbk, if_pos hak] at ih ⊢
          rw [ih]
        · simp only [if_neg hbk, if_neg hak] at ih ⊢
          rw [ih]

/-- Stability of insertion sort by a `Nat` key: the sublist of elements
with any fixed key value is untouched by sorting. -/
theorem filter_key_insertionSort {α : Type} (r : α → α → Prop) [DecidableRel r]
    (key : α → Nat) (hr : ∀ x y, r x y ↔ key y ≤ key x) (k : Nat)
    (l : List α) :
    (List.insertionSort r l).filter (fun x => decide (key x = k))
      = l.filter (fun x => decide (key x = k)) := by
  induction l with
  | nil => rfl
  | cons a t ih =>
    simp only [List.insertionSort]
    rw [filter_key_orderedInsert r key hr k a (List.insertionSort r t)]
    simp only [List.filter_cons, decide_eq_true_eq]
    by_cases hak : key a = k
    · simp only [if_pos hak]
      rw [ih]
    · simp only [if_neg hak]
      exact ih

/-- A permutation that is sorted (descending by key) on both sides and has
pairwise-distinct keys is an equality. -/
theorem eq_of_perm_sorted_nodup_keys {α : Type} (key : α → Nat) :
    ∀ {l₁ l₂ : List α}, l₁.Perm l₂ →
      l₁.Pairwise (fun a b => key b ≤ key a) →
      l₂.Pairwise (fun a b => key b ≤ key a) →
      (l₁.map key).Nodup → l₁ = l₂ := by
  intro l₁
  induction l₁ with
  | nil => intro l₂ hp _ _ _; exact hp.nil_eq
  | cons a t ih =>
    intro l₂ hp hs₁ hs₂ hnd
    cases l₂ with
    | nil => exact absurd hp.eq_nil (List.cons_ne_nil a t)
    | cons b t₂ =>
      have hab : a = b := by
        by_contra hne
        have ha2 : a ∈ t₂ := by
          have h1 := hp.subset (List.mem_cons_self a t)
          rcases List.mem_cons.mp h1 with h | h
          · exact absurd h hne
          · exact h
        have hb1 : b ∈ t := by
          have h1 := hp.symm.subset (List.mem_cons_self b t₂)
          rcases List.mem_cons.mp h1 with h | h
          · exact absurd h.symm hne
          · exact h
        have h1 : key a ≤ key b := (List.pairwise_cons.mp hs₂).1 a ha2
        have h2 : key b ≤ key a := (List.pairwise_cons.mp hs₁).1 b hb1
        have hk : key a = key b := Nat.le_antisymm h1 h2
        exact hne (List.inj_on_of_nodup_map hnd (List.mem_cons_self a t)
          (List.mem_cons_of_mem a hb1) hk)
      subst hab
      have hnd2 : (t.map key).Nodup := by
        simp only [List.map_cons] at hnd
        exact hnd.of_cons
      rw [ih hp.cons_inv hs₁.of_cons hs₂.of_cons hnd2]

/-- Filtering by a disjunction of two disjoint tests permutes to the
concatenation of the two filters. -/
theorem filter_or_perm {α : Type} (f q : α → Bool) :
    ∀ l : List α, (∀ x ∈ l, ¬(f x = true ∧ q x = true)) →
      (l.filter (fun x => f x || q x)).Perm (l.filter f ++ l.filter q) := by
  intro l
  induction l with
  | nil => intro _; simp
  | cons x t ih =>
    intro hd
    have iht := ih (fun y hy => hd y (List.mem_cons_of_mem x hy))
    simp only [List.filter_cons]
    cases hf : f x with
    | true =>
      have hq : q x = false := by
        cases hq : q x with
        | true => exact absurd ⟨hf, hq⟩ (hd x (List.mem_cons_self x t))
        | false => rfl
      simp only [hf, hq, Bool.true_or, List.cons_append]
      exact iht.cons x
    | false =>
      cases hq : q x with
      | true =>
        simp only [hf, hq, Bool.false_or]
        exact (iht.cons x).trans List.perm_middle.symm
      | false =>
        simp only [hf, hq, Bool.false_or]
        exact iht

/-- `String.intercalate.go` is the fold the Python loop performs. -/
theorem intercalate_go_eq_foldl (s : String) :
    ∀ (as : List String) (acc : String),
      String.intercalate.go acc s as = as.foldl (fun x y => x ++ s ++ y) acc := by
  intro as
  induction as with
  | nil => intro acc; rfl
  | cons a t ih => intro acc; simp only [String.intercalate.go, List.foldl_cons, ih]

/-- The `combined_text` loop builds exactly the blank-line-separated
concatenation of the member texts. -/
theorem combineText_eq_intercalate (th : List Tweet) :
    combineText th = String.intercalate sepNl (th.map (fun t => t.text)) := by
  cases th with
  | nil => rfl
  | cons t rest =>
    simp only [combineText, List.map_cons, String.intercalate,
      intercalate_go_eq_foldl, List.foldl_map]

/-! ### Unfolding lemmas for the clustering loop -/

theorem detectAux_nil (W : Nat) (cl : List String) (acc : List (List Tweet)) :
    detectAux W [] cl acc = (acc, cl) := rfl

theorem detectAux_cons_claimed (W : Nat) (t : Tweet) (rest : List Tweet)
    (cl : List String) (acc : List (List Tweet)) (h : t.id ∈ cl) :
    detectAux W (t :: rest) cl acc = detectAux W rest cl acc := by
  simp only [detectAux, if_pos h]

theorem detectAux_cons_thread (W : Nat) (t : Tweet) (rest : List Tweet)
    (cl : List String) (acc : List (List Tweet)) (h1 : t.id ∉ cl)
    (h2 : 1 < (candsOf W cl t rest).length) :
    detectAux W (t :: rest) cl acc
      = detectAux W rest (cl ++ (candsOf W cl t rest).map (fun u => u.id))
          (acc ++ [List.insertionSort chronLe (candsOf W cl t rest)]) := by
  simp only [detectAux, if_neg h1, if_pos h2]

theorem detectAux_cons_alone (W : Nat) (t : Tweet) (rest : List Tweet)
    (cl : List String) (acc : List (List Tweet)) (h1 : t.id ∉ cl)
    (h2 : ¬ 1 < (candsOf W cl t rest).length) :
    detectAux W (t :: rest) cl acc = detectAux W rest cl acc := by
  simp only [detectAux, if_neg h1, if_neg h2]

/-- The accumulator is a pure prefix of the first component. -/
theorem detectAux_acc (W : Nat) :
    ∀ (l : List Tweet) (cl : List String) (acc : List (List Tweet)),
      detectAux W l cl acc
        = (acc ++ (detectAux W l cl []).1, (detectAux W l cl []).2) := by
  intro l
  induction l with
  | nil => intro cl acc; simp [detectAux_nil]
  | cons t rest ih =>
    intro cl acc
    by_cases h1 : t.id ∈ cl
    · rw [detectAux_cons_claimed W t rest cl acc h1,
        detectAux_cons_claimed W t rest cl [] h1, ih]
    · by_cases h2 : 1 < (candsOf W cl t rest).length
      · rw [detectAux_cons_thread W t rest cl acc h1 h2,
          detectAux_cons_thread W t rest cl [] h1 h2]
        rw [ih (cl ++ (candsOf W cl t rest).map (fun u => u.id))
              (acc ++ [List.insertionSort chronLe (candsOf W cl t rest)]),
            ih (cl ++ (candsOf W cl t rest).map (fun u => u.id))
              ([] ++ [List.insertionSort chronLe (candsOf W cl t rest)])]
        simp only [List.nil_append, List.append_assoc]
      · rw [detectAux_cons_alone W t rest cl acc h1 h2,
          detectAux_cons_alone W t rest cl [] h1 h2, ih]

/-- Thread-forming step with an empty accumulator. -/
theorem detectAux_cons_thread_nil (W : Nat) (t : Tweet) (rest : List Tweet)
    (cl : List String) (h1 : t.id ∉ cl) (h2 : 1 < (candsOf W cl t rest).length) :
    detectAux W (t :: rest) cl []
      = (List.insertionSort chronLe (candsOf W cl t rest)
            :: (detectAux W rest (cl ++ (candsOf W cl t rest).map (fun u => u.id)) []).1,
         (detectAux W rest (cl ++ (candsOf W cl t rest).map (fun u => u.id)) []).2) := by
  rw [detectAux_cons_thread W t rest cl [] h1 h2, detectAux_acc]
  simp

/-- The claimed-id set only grows. -/
theorem detectAux_claimed_subset (W : Nat) :
    ∀ (l : List Tweet) (cl : List String), ∀ x ∈ cl, x ∈ (detectAux W l cl []).2 := by
  intro l
  induction l with
  | nil => intro cl x hx; exact hx
  | cons t rest ih =>
    intro cl x hx
    by_cases h1 : t.id ∈ cl
    · rw [detectAux_cons_claimed W t rest cl [] h1]; exact ih cl x hx
    · by_cases h2 : 1 < (candsOf W cl t rest).length
      · rw [detectAux_cons_thread_nil W t rest cl h1 h2]
        exact ih _ x (List.mem_append_left _ hx)
      · rw [detectAux_cons_alone W t rest cl [] h1 h2]; exact ih cl x hx

/-- Membership in a candidate set. -/
theorem mem_candsOf {W : Nat} {cl : List String} {t : Tweet} {rest : List Tweet}
    {u : Tweet} :
    u ∈ candsOf W cl t rest
      ↔ u = t ∨ (u ∈ rest ∧ u.id ∉ cl ∧ Nat.dist t.timestamp u.timestamp ≤ W) := by
  simp [candsOf, List.mem_filter, decide_eq_true_eq]

/-- Every candidate is the anchor or a later tweet. -/
theorem candsOf_subset {W : Nat} {cl : List String} {t : Tweet} {rest : List Tweet} :
    ∀ u ∈ candsOf W cl t rest, u ∈ t :: rest := by
  intro u hu
  rcases mem_candsOf.mp hu with rfl | ⟨h, _, _⟩
  · exact List.mem_cons_self u rest
  · exact List.mem_cons_of_mem t h

/-- Ids claimed during a run were ids of tweets in the scanned suffix. -/
theorem detectAux_claimed_new (W : Nat) :
    ∀ (l : List Tweet) (cl : List String), ∀ x ∈ (detectAux W l cl []).2,
      x ∈ cl ∨ x ∈ l.map (fun u => u.id) := by
  intro l
  induction l with
  | nil => intro cl x hx; exact Or.inl hx
  | cons t rest ih =>
    intro cl x hx
    have hmono : x ∈ List.map (fun u => u.id) rest
        → x ∈ List.map (fun u => u.id) (t :: rest) := by
      intro h
      simp only [List.map_cons, List.mem_cons]
      exact Or.inr h
    by_cases h1 : t.id ∈ cl
    · rw [detectAux_cons_claimed W t rest cl [] h1] at hx
      rcases ih cl x hx with h | h
      · exact Or.inl h
      · exact Or.inr (hmono h)
    · by_cases h2 : 1 < (candsOf W cl t rest).length
      · rw [detectAux_cons_thread_nil W t rest cl h1 h2] at hx
        rcases ih _ x hx with h | h
        · rcases List.mem_append.mp h with h3 | h3
          · exact Or.inl h3
          · exact Or.inr (List.map_subset (fun u => u.id)
              (fun u hu => candsOf_subset u hu) h3)
        · exact Or.inr (hmono h)
      · rw [detectAux_cons_alone W t rest cl [] h1 h2] at hx
        rcases ih cl x hx with h | h
        · exact Or.inl h
        · exact Or.inr (hmono h)

/-- Every emitted thread is nonempty, and each member comes from the
scanned list and was unclaimed when the run started. -/
theorem detectAux_members (W : Nat) :
    ∀ (l : List Tweet) (cl : List String), ∀ th ∈ (detectAux W l cl []).1,
      th ≠ [] ∧ ∀ m ∈ th, m ∈ l ∧ m.id ∉ cl := by
  intro l
  induction l with
  | nil =>
    intro cl th hth
    rw [detectAux_nil] at hth
    exact absurd hth (List.not_mem_nil th)
  | cons t rest ih =>
    intro cl th hth
    by_cases h1 : t.id ∈ cl
    · rw [detectAux_cons_claimed W t rest cl [] h1] at hth
      have h := ih cl th hth
      exact ⟨h.1, fun m hm => ⟨List.mem_cons_of_mem t (h.2 m hm).1, (h.2 m hm).2⟩⟩
    · by_cases h2 : 1 < (candsOf W cl t rest).length
      · rw [detectAux_cons_thread_nil W t rest cl h1 h2] at hth
        rcases List.mem_cons.mp hth with rfl | hth2
        · constructor
          · intro hemp
            have hlen := congrArg List.length hemp
            rw [List.length_insertionSort] at hlen
            simp only [List.length_nil] at hlen
            omega
          · intro m hm
            have hm2 : m ∈ candsOf W cl t rest :=
              (List.mem_insertionSort chronLe).mp hm
            rcases mem_candsOf.mp hm2 with rfl | ⟨hr, hid, _⟩
            · exact ⟨List.mem_cons_self m rest, h1⟩
            · exact ⟨List.mem_cons_of_mem t hr, hid⟩
        · have h := ih _ th hth2
          refine ⟨h.1, fun m hm => ?_⟩
          have h3 := h.2 m hm
          exact ⟨List.mem_cons_of_mem t h3.1, fun hc => h3.2 (List.mem_append_left _ hc)⟩
      · rw [detectAux_cons_alone W t rest cl [] h1 h2] at hth
        have h := ih cl th hth
        exact ⟨h.1, fun m hm => ⟨List.mem_cons_of_mem t (h.2 m hm).1, (h.2 m hm).2⟩⟩

/-- Every emitted thread is a chronologically sorted candidate set: an
anchor plus later members, each no newer than the anchor and within the
window of the anchor. -/
theorem detectAux_shape (W : Nat) :
    ∀ (l : List Tweet) (cl : List String), List.Sorted tweetLeDesc l →
      ∀ th ∈ (detectAux W l cl []).1, ∃ a mates,
        th = List.insertionSort chronLe (a :: mates)
        ∧ ∀ u ∈ mates, u.timestamp ≤ a.timestamp
            ∧ Nat.dist a.timestamp u.timestamp ≤ W := by
  intro l
  induction l with
  | nil =>
    intro cl _ th hth
    rw [detectAux_nil] at hth
    exact absurd hth (List.not_mem_nil th)
  | cons t rest ih =>
    intro cl hsort th hth
    have hsrest : List.Sorted tweetLeDesc rest := hsort.of_cons
    by_cases h1 : t.id ∈ cl
    · rw [detectAux_cons_claimed W t rest cl [] h1] at hth
      exact ih cl hsrest th hth
    · by_cases h2 : 1 < (candsOf W cl t rest).length
      · rw [detectAux_cons_thread_nil W t rest cl h1 h2] at hth
        rcases List.mem_cons.mp hth with rfl | hth2
        · refine ⟨t, rest.filter
            (fun u => decide (u.id ∉ cl ∧ Nat.dist t.timestamp u.timestamp ≤ W)), rfl, ?_⟩
          intro u hu
          have hur : u ∈ rest := (List.mem_filter.mp hu).1
          have hpred := (List.mem_filter.mp hu).2
          simp only [decide_eq_true_eq] at hpred
          exact ⟨(List.pairwise_cons.mp hsort).1 u hur, hpred.2⟩
        · exact ih _ hsrest th hth2
      · rw [detectAux_cons_alone W t rest cl [] h1 h2] at hth
        exact ih cl hsrest th hth

/-- Partition: when ids are pairwise distinct, the members of the emitted
threads are, up to permutation, exactly the scanned tweets whose id got
claimed during the run (and was not claimed on entry). -/
theorem detectAux_partition (W : Nat) :
    ∀ (l : List Tweet) (cl : List String), (l.map (fun u => u.id)).Nodup →
      ((detectAux W l cl []).1.flatten).Perm
        (l.filter (fun u => decide (u.id ∉ cl ∧ u.id ∈ (detectAux W l cl []).2))) := by
  intro l
  induction l with
  | nil => intro cl _; simp [detectAux_nil]
  | cons t rest ih =>
    intro cl hnd
    have hnd2 : (rest.map (fun u => u.id)).Nodup := by
      simp only [List.map_cons] at hnd
      exact hnd.of_cons
    have htid : t.id ∉ rest.map (fun u => u.id) := by
      simp only [List.map_cons] at hnd
      exact (List.nodup_cons.mp hnd).1
    by_cases h1 : t.id ∈ cl
    · rw [detectAux_cons_claimed W t rest cl [] h1]
      have hp : decide (t.id ∉ cl ∧ t.id ∈ (detectAux W rest cl []).2) = false := by
        simp [h1]
      simp only [List.filter_cons, hp, Bool.false_eq_true, if_false]
      exact ih cl hnd2
    · by_cases h2 : 1 < (candsOf W cl t rest).length
      · rw [detectAux_cons_thread_nil W t rest cl h1 h2]
        set filt := rest.filter
          (fun u => decide (u.id ∉ cl ∧ Nat.dist t.timestamp u.timestamp ≤ W)) with hfilt
        set cl₂ := cl ++ (candsOf W cl t rest).map (fun u => u.id) with hcl₂
        set clF := (detectAux W rest cl₂ []).2 with hclF
        have hsub : ∀ x ∈ cl₂, x ∈ clF := detectAux_claimed_subset W rest cl₂
        have hcands : ∀ x ∈ (candsOf W cl t rest).map (fun u => u.id), x ∈ clF :=
          fun x hx => hsub x (List.mem_append_right cl hx)
        have htin : t.id ∈ clF := hcands t.id (by simp [candsOf])
        have hfid : ∀ u ∈ filt, u.id ∈ clF := by
          intro u hu
          refine hcands u.id (List.mem_map_of_mem (fun (v : Tweet) => v.id) ?_)
          simp only [candsOf]
          exact List.mem_cons_of_mem t hu
        -- the two disjoint tests on `rest`
        have key : ∀ u ∈ rest,
            decide (u.id ∉ cl ∧ u.id ∈ clF)
              = (decide (u.id ∉ cl ∧ Nat.dist t.timestamp u.timestamp ≤ W)
                  || decide (u.id ∉ cl₂ ∧ u.id ∈ clF)) := by
          intro u hu
          have huid : u.id ≠ t.id := by
            intro h
            exact htid (h ▸ List.mem_map_of_mem (fun v => v.id) hu)
          by_cases hf : u.id ∉ cl ∧ Nat.dist t.timestamp u.timestamp ≤ W
          · have huin : u.id ∈ clF := hfid u (List.mem_filter.mpr ⟨hu, by simp [hf]⟩)
            simp [hf, huin, hf.1]
          · by_cases hq : u.id ∉ cl₂ ∧ u.id ∈ clF
            · have hucl : u.id ∉ cl := fun h => hq.1 (List.mem_append_left _ h)
              simp [hf, hq, hucl, hq.2]
            · -- both tests fail; show the left side fails too
              have : ¬(u.id ∉ cl ∧ u.id ∈ clF) := by
                intro hp2
                apply hq
                refine ⟨?_, hp2.2⟩
                intro hin2
                rcases List.mem_append.mp hin2 with h | h
                · exact hp2.1 h
                · -- u.id among the candidate ids: then u is in `filt`
                  simp only [candsOf, List.map_cons, List.mem_cons] at h
                  rcases h with h | h
                  · exact huid h
                  · rcases List.mem_map.mp h with ⟨v, hv, hvid⟩
                    have hvrest : v ∈ rest := (List.mem_filter.mp hv).1
                    have : v = u := List.inj_on_of_nodup_map hnd2 hvrest hu hvid
                    subst this
                    have hpred := (List.mem_filter.mp hv).2
                    simp only [decide_eq_true_eq] at hpred
                    exact hf hpred
              simp [hf, hq, this]
        have hdisj : ∀ u ∈ rest,
            ¬(decide (u.id ∉ cl ∧ Nat.dist t.timestamp u.timestamp ≤ W) = true
              ∧ decide (u.id ∉ cl₂ ∧ u.id ∈ clF) = true) := by
          intro u hu hc
          simp only [decide_eq_true_eq] at hc
          apply hc.2.1
          apply List.mem_append_right
          refine List.mem_map_of_mem (fun (v : Tweet) => v.id) ?_
          simp only [candsOf]
          exact List.mem_cons_of_mem t (List.mem_filter.mpr ⟨hu, by simp [hc.1]⟩)
        -- assemble the permutation
        have hper1 : ((List.insertionSort chronLe (candsOf W cl t rest))
              :: (detectAux W rest cl₂ []).1).flatten.Perm
            (candsOf W cl t rest ++ (detectAux W rest cl₂ []).1.flatten) := by
          simp only [List.flatten_cons]
          exact (List.perm_insertionSort chronLe (candsOf W cl t rest)).append_right _
        have hper2 : ((detectAux W rest cl₂ []).1.flatten).Perm
            (rest.filter (fun u => decide (u.id ∉ cl₂ ∧ u.id ∈ clF))) := ih cl₂ hnd2
        have hper3 : (rest.filter (fun u => decide (u.id ∉ cl ∧ u.id ∈ clF))).Perm
            (filt ++ rest.filter (fun u => decide (u.id ∉ cl₂ ∧ u.id ∈ clF))) := by
          rw [List.filter_congr key]
          exact filter_or_perm _ _ rest hdisj
        have hpt : decide (t.id ∉ cl ∧ t.id ∈ clF) = true := by simp [h1, htin]
        have hfin : (t :: rest).filter (fun u => decide (u.id ∉ cl ∧ u.id ∈ clF))
            = t :: rest.filter (fun u => decide (u.id ∉ cl ∧ u.id ∈ clF)) := by
          rw [List.filter_cons]
          simp [hpt]
        rw [hfin]
        refine hper1.trans ?_
        refine (hper2.append_left _).trans ?_
        have hstep : candsOf W cl t rest
              ++ rest.filter (fun u => decide (u.id ∉ cl₂ ∧ u.id ∈ clF))
            = t :: (filt ++ rest.filter (fun u => decide (u.id ∉ cl₂ ∧ u.id ∈ clF))) := by
          simp only [candsOf, List.cons_append]
        rw [hstep]
        exact (hper3.symm).cons t
      · rw [detectAux_cons_alone W t rest cl [] h1 h2]
        have hniD : t.id ∉ (detectAux W rest cl []).2 := by
          intro hc
          rcases detectAux_claimed_new W rest cl t.id hc with h | h
          · exact h1 h
          · exact htid h
        have hp : decide (t.id ∉ cl ∧ t.id ∈ (detectAux W rest cl []).2) = false := by
          simp [hniD]
        simp only [List.filter_cons, hp, Bool.false_eq_true, if_false]
        exact ih cl hnd2

/-- A member of an emitted thread never shares its instant with a tweet
whose id is never claimed (i.e. a standalone tweet): such a tweet would
itself have been inside the window of the thread's anchor. -/
theorem detectAux_thread_standalone_ts (W : Nat) :
    ∀ (l : List Tweet) (cl : List String), List.Sorted tweetLeDesc l →
      ∀ th ∈ (detectAux W l cl []).1, ∀ m ∈ th, ∀ s ∈ l,
        s.id ∉ (detectAux W l cl []).2 → m.timestamp ≠ s.timestamp := by
  intro l
  induction l with
  | nil =>
    intro cl _ th hth
    rw [detectAux_nil] at hth
    exact absurd hth (List.not_mem_nil th)
  | cons t rest ih =>
    intro cl hsort th hth m hm s hs hsid
    have hsrest : List.Sorted tweetLeDesc rest := hsort.of_cons
    by_cases h1 : t.id ∈ cl
    · rw [detectAux_cons_claimed W t rest cl [] h1] at hth hsid
      rcases List.mem_cons.mp hs with rfl | hs2
      · exact absurd (detectAux_claimed_subset W rest cl s.id h1) hsid
      · exact ih cl hsrest th hth m hm s hs2 hsid
    · by_cases h2 : 1 < (candsOf W cl t rest).length
      · rw [detectAux_cons_thread_nil W t rest cl h1 h2] at hth hsid
        have htcand : t.id ∈ (candsOf W cl t rest).map (fun u => u.id) := by
          simp [candsOf]
        rcases List.mem_cons.mp hth with rfl | hth2
        · have hm2 : m ∈ candsOf W cl t rest := (List.mem_insertionSort chronLe).mp hm
          rcases List.mem_cons.mp hs with rfl | hs2
          · exact absurd (detectAux_claimed_subset W rest _ s.id
              (List.mem_append_right cl htcand)) hsid
          · intro hts
            have hmfacts : m.timestamp ≤ t.timestamp
                ∧ Nat.dist t.timestamp m.timestamp ≤ W := by
              rcases mem_candsOf.mp hm2 with rfl | ⟨hmr, _, hmw⟩
              · exact ⟨le_refl _, by simp [Nat.dist_self]⟩
              · exact ⟨(List.pairwise_cons.mp hsort).1 m hmr, hmw⟩
            have hsts : s.timestamp ≤ t.timestamp := (List.pairwise_cons.mp hsort).1 s hs2
            have hsw : Nat.dist t.timestamp s.timestamp ≤ W := by
              have h3 := hmfacts.2
              have h4 := hmfacts.1
              simp only [Nat.dist] at h3 ⊢
              omega
            have hscl : s.id ∉ cl := fun hc => hsid
              (detectAux_claimed_subset W rest _ s.id (List.mem_append_left _ hc))
            apply hsid
            apply detectAux_claimed_subset W rest _ s.id
            apply List.mem_append_right
            exact List.mem_map_of_mem (fun (v : Tweet) => v.id)
              (mem_candsOf.mpr (Or.inr ⟨hs2, hscl, hsw⟩))
        · rcases List.mem_cons.mp hs with rfl | hs2
          · exact absurd (detectAux_claimed_subset W rest _ s.id
              (List.mem_append_right cl htcand)) hsid
          · exact ih _ hsrest th hth2 m hm s hs2 hsid
      · rw [detectAux_cons_alone W t rest cl [] h1 h2] at hth hsid
        rcases List.mem_cons.mp hs with rfl | hs2
        · intro hts
          have hmemb := (detectAux_members W rest cl th hth).2 m hm
          apply h2
          have hdm : Nat.dist s.timestamp m.timestamp ≤ W := by
            rw [hts]
            simp [Nat.dist_self]
          have hmf : m ∈ rest.filter
              (fun u => decide (u.id ∉ cl ∧ Nat.dist s.timestamp u.timestamp ≤ W)) :=
            List.mem_filter.mpr ⟨hmemb.1, by simp [hmemb.2, hdm]⟩
          have hpos : 0 < (rest.filter
              (fun u => decide (u.id ∉ cl ∧ Nat.dist s.timestamp u.timestamp ≤ W))).length :=
            List.length_pos.mpr (List.ne_nil_of_mem hmf)
          simp only [candsOf, List.length_cons]
          omega
        · exact ih cl hsrest th hth m hm s hs2 hsid

/-- Members of two distinct emitted threads never share an instant: the
later thread's member would have been inside the window of the earlier
thread's anchor and hence claimed by it. -/
theorem detectAux_threads_ts_pairwise (W : Nat) :
    ∀ (l : List Tweet) (cl : List String), List.Sorted tweetLeDesc l →
      ((detectAux W l cl []).1).Pairwise
        (fun th₁ th₂ => ∀ m₁ ∈ th₁, ∀ m₂ ∈ th₂, m₁.timestamp ≠ m₂.timestamp) := by
  intro l
  induction l with
  | nil =>
    intro cl _
    rw [detectAux_nil]
    exact List.Pairwise.nil
  | cons t rest ih =>
    intro cl hsort
    have hsrest : List.Sorted tweetLeDesc rest := hsort.of_cons
    by_cases h1 : t.id ∈ cl
    · rw [detectAux_cons_claimed W t rest cl [] h1]
      exact ih cl hsrest
    · by_cases h2 : 1 < (candsOf W cl t rest).length
      · rw [detectAux_cons_thread_nil W t rest cl h1 h2]
        refine List.pairwise_cons.mpr ⟨?_, ih _ hsrest⟩
        intro th hth m₁ hm₁ m₂ hm₂ hts
        have hm₁c : m₁ ∈ candsOf W cl t rest := (List.mem_insertionSort chronLe).mp hm₁
        have hmemb := (detectAux_members W rest _ th hth).2 m₂ hm₂
        have hm1facts : m₁.timestamp ≤ t.timestamp
            ∧ Nat.dist t.timestamp m₁.timestamp ≤ W := by
          rcases mem_candsOf.mp hm₁c with rfl | ⟨hmr, _, hmw⟩
          · exact ⟨le_refl _, by simp [Nat.dist_self]⟩
          · exact ⟨(List.pairwise_cons.mp hsort).1 m₁ hmr, hmw⟩
        have hm2ts : m₂.timestamp ≤ t.timestamp :=
          (List.pairwise_cons.mp hsort).1 m₂ hmemb.1
        have hm2w : Nat.dist t.timestamp m₂.timestamp ≤ W := by
          have h3 := hm1facts.2
          have h4 := hm1facts.1
          simp only [Nat.dist] at h3 ⊢
          omega
        have hm2cl : m₂.id ∉ cl := fun hc => hmemb.2 (List.mem_append_left _ hc)
        apply hmemb.2
        apply List.mem_append_right
        exact List.mem_map_of_mem (fun (v : Tweet) => v.id)
          (mem_candsOf.mpr (Or.inr ⟨hmemb.1, hm2cl, hm2w⟩))
      · rw [detectAux_cons_alone W t rest cl [] h1 h2]
        exact ih cl hsrest

/-- Any two tweets left standalone are more than one window apart — in
particular their instants differ. -/
theorem detectAux_standalone_pairwise (W : Nat) :
    ∀ (l : List Tweet) (cl : List String), List.Sorted tweetLeDesc l →
      (l.filter (fun u => decide (u.id ∉ (detectAux W l cl []).2))).Pairwise
        (fun a b => W < Nat.dist a.timestamp b.timestamp) := by
  intro l
  induction l with
  | nil =>
    intro cl _
    exact List.Pairwise.nil
  | cons t rest ih =>
    intro cl hsort
    have hsrest : List.Sorted tweetLeDesc rest := hsort.of_cons
    by_cases h1 : t.id ∈ cl
    · rw [detectAux_cons_claimed W t rest cl [] h1]
      have hp : decide (t.id ∉ (detectAux W rest cl []).2) = false := by
        simp [detectAux_claimed_subset W rest cl t.id h1]
      simp only [List.filter_cons, hp, Bool.false_eq_true, if_false]
      exact ih cl hsrest
    · by_cases h2 : 1 < (candsOf W cl t rest).length
      · rw [detectAux_cons_thread_nil W t rest cl h1 h2]
        have htcand : t.id ∈ cl ++ (candsOf W cl t rest).map (fun u => u.id) :=
          List.mem_append_right cl (by simp [candsOf])
        have hp : decide (t.id ∉ (detectAux W rest
            (cl ++ (candsOf W cl t rest).map (fun u => u.id)) []).2) = false := by
          simp [detectAux_claimed_subset W rest _ t.id htcand]
        simp only [List.filter_cons, hp, Bool.false_eq_true, if_false]
        exact ih _ hsrest
      · rw [detectAux_cons_alone W t rest cl [] h1 h2]
        have hfilt : rest.filter
            (fun u => decide (u.id ∉ cl ∧ Nat.dist t.timestamp u.timestamp ≤ W)) = [] := by
          have hlen : (candsOf W cl t rest).length = 1 + (rest.filter
              (fun u => decide (u.id ∉ cl ∧ Nat.dist t.timestamp u.timestamp ≤ W))).length := by
            simp [candsOf]
            omega
          rcases List.eq_nil_or_concat (rest.filter
              (fun u => decide (u.id ∉ cl ∧ Nat.dist t.timestamp u.timestamp ≤ W))) with h | ⟨a, b, hab⟩
          · exact h
          · exfalso
            apply h2
            rw [hlen, hab]
            simp
        by_cases ht : t.id ∈ (detectAux W rest cl []).2
        · have hp : decide (t.id ∉ (detectAux W rest cl []).2) = false := by simp [ht]
          simp only [List.filter_cons, hp, Bool.false_eq_true, if_false]
          exact ih cl hsrest
        · have hp : decide (t.id ∉ (detectAux W rest cl []).2) = true := by simp [ht]
          simp only [List.filter_cons, hp, if_true]
          refine List.pairwise_cons.mpr ⟨?_, ih cl hsrest⟩
          intro v hv
          have hvrest : v ∈ rest := (List.mem_filter.mp hv).1
          have hvid : v.id ∉ (detectAux W rest cl []).2 := by
            have h3 := (List.mem_filter.mp hv).2
            simpa using h3
          have hvcl : v.id ∉ cl := fun hc => hvid (detectAux_claimed_subset W rest cl v.id hc)
          by_contra hle
          have hle2 : Nat.dist t.timestamp v.timestamp ≤ W := by omega
          have : v ∈ rest.filter
              (fun u => decide (u.id ∉ cl ∧ Nat.dist t.timestamp u.timestamp ≤ W)) :=
            List.mem_filter.mpr ⟨hvrest, by simp [hvcl, hle2]⟩
          rw [hfilt] at this
          exact absurd this (List.not_mem_nil v)

/-! ### Pipeline glue -/

/-- The §6 validity test on an input record: non-empty id and non-empty
stripped text. -/
def validRow (r : Row) : Bool := decide (r.tweet_id ≠ "" ∧ pyStrip r.text ≠ "")

theorem tweetKeep_mkTweet (now : Nat) (r : Row) :
    tweetKeep (mkTweet now r) = validRow r := rfl

/-- The working list is the valid rows, mapped and stably sorted. -/
theorem read_tweets_eq (now : Nat) (rows : List Row) :
    read_tweets now rows
      = List.insertionSort tweetLeDesc ((rows.filter validRow).map (mkTweet now)) := by
  rw [read_tweets, List.filter_map]
  rfl

theorem read_tweets_sorted (now : Nat) (rows : List Row) :
    List.Sorted tweetLeDesc (read_tweets now rows) :=
  List.sorted_insertionSort tweetLeDesc _

theorem read_tweets_perm (now : Nat) (rows : List Row) :
    (read_tweets now rows).Perm ((rows.filter validRow).map (mkTweet now)) := by
  rw [read_tweets_eq]
  exact List.perm_insertionSort tweetLeDesc _

/-- Every tweet of the working list carries the instant its own
`created_at` text parses to. -/
theorem read_tweets_timestamp (now : Nat) (rows : List Row) :
    ∀ u ∈ read_tweets now rows, u.timestamp = parse_timestamp now u.created_at := by
  intro u hu
  have hu2 := (read_tweets_perm now rows).subset hu
  rcases List.mem_map.mp hu2 with ⟨r, _, rfl⟩
  rfl

theorem detect_threads_fst (W : Nat) (tweets : List Tweet) :
    (detect_threads W tweets).1 = (detectAux W tweets [] []).1 := rfl

theorem detect_threads_snd (W : Nat) (tweets : List Tweet) :
    (detect_threads W tweets).2
      = tweets.filter (fun t => decide (t.id ∉ (detectAux W tweets [] []).2)) := rfl

/-! ### Concrete fixtures -/

/-- A post at 12:00:00. -/
def rowX : Row := { tweet_id := "x", created_at := "2025-08-12T12:00:00Z", text := "X" }

/-- A post exactly 120 seconds after `rowX`. -/
def rowY120 : Row := { tweet_id := "y", created_at := "2025-08-12T12:02:00Z", text := "Y" }

/-- A post 121 seconds after `rowX`. -/
def rowY121 : Row := { tweet_id := "y", created_at := "2025-08-12T12:02:01Z", text := "Y" }

/-- C2: the window comparison of `_detect_threads` is inclusive.  With
exactly two posts in the working list, they land in one cluster precisely
when their absolute gap is at most the window `W` (`W` is
`time_window_minutes * 60` seconds, i.e. `window_seconds`, in microseconds;
the default window is 120 s).  Concretely, with the default configuration
two posts 120 s apart merge into a thread and two posts 121 s apart stay
standalone. -/
theorem c2_window_inclusive :
    (∀ (W : Nat) (t u : Tweet),
      (∃ th ∈ (detect_threads W [t, u]).1, t ∈ th ∧ u ∈ th)
        ↔ Nat.dist t.timestamp u.timestamp ≤ W)
    ∧ (consolidate 0 2 [rowX, rowY120]).map (fun p => p.is_thread) = [true]
    ∧ (consolidate 0 2 [rowX, rowY121]).map (fun p => p.is_thread) = [false, false] := by
  refine ⟨?_, by decide, by decide⟩
  intro W t u
  rw [detect_threads_fst]
  by_cases hw : Nat.dist t.timestamp u.timestamp ≤ W
  · simp [detectAux, candsOf, hw]
    by_cases hc : chronLe t u <;> simp [hc]
  · simp [detectAux, candsOf, hw]

/-- The working list is empty exactly when no row passes the id/text
filter. -/
theorem read_tweets_nil_iff (now : Nat) (rows : List Row) :
    read_tweets now rows = [] ↔ rows.filter validRow = [] := by
  rw [read_tweets_eq]
  constructor
  · intro h
    have h2 := congrArg List.length h
    rw [List.length_insertionSort, List.length_map] at h2
    exact List.eq_nil_of_length_eq_zero (by simpa using h2)
  · intro h
    rw [h]
    rfl

/-- C8: the engine terminates the run with the explicit "no data" error if
and only if no input row has both a non-empty id and a non-empty stripped
text; the error text is exactly the source's message; and whenever at
least one valid row remains the run succeeds — rows missing id or text are
excluded without raising and never abort the run. -/
theorem c8_no_data_iff (now winMin : Nat) (rows : List Row) :
    ((∃ e, process_posts now winMin rows = Except.error e)
        ↔ rows.filter validRow = [])
    ∧ (∀ e, process_posts now winMin rows = Except.error e → e = noDataMsg)
    ∧ (rows.filter validRow ≠ []
        → process_posts now winMin rows = Except.ok (consolidate now winMin rows)) := by
  by_cases hemp : (read_tweets now rows).isEmpty
  · have hnil : read_tweets now rows = [] := by
      simpa using hemp
    refine ⟨⟨fun _ => (read_tweets_nil_iff now rows).mp hnil,
        fun _ => ⟨noDataMsg, by simp [process_posts, hemp]⟩⟩, ?_, ?_⟩
    · intro e he
      simp only [process_posts, hemp, if_true] at he
      exact (Except.error.inj he).symm
    · intro hne
      exact absurd ((read_tweets_nil_iff now rows).mp hnil) hne
  · have hnil : read_tweets now rows ≠ [] := by
      intro h
      simp [h] at hemp
    refine ⟨⟨?_, ?_⟩, ?_, ?_⟩
    · rintro ⟨e, he⟩
      simp [process_posts, hemp] at he
    · intro h
      exact absurd ((read_tweets_nil_iff now rows).mpr h) hnil
    · intro e he
      simp [process_posts, hemp] at he
    · intro _
      simp [process_posts, hemp]

/-- C10: every thread emitted by the pipeline spans at most one window.
Posts are scanned newest-first, so a cluster's anchor is its latest member
and every member lies in the anchor's inclusive window; hence any two
members — in particular the chronologically first and last — are at most
`window_seconds` (here in microseconds) apart. -/
theorem c10_thread_span (now winMin : Nat) (rows : List Row) :
    ∀ th ∈ (detect_threads (winMin * 60 * 1000000) (read_tweets now rows)).1,
      ∀ a ∈ th, ∀ b ∈ th,
        Nat.dist a.timestamp b.timestamp ≤ winMin * 60 * 1000000 := by
  intro th hth a ha b hb
  rw [detect_threads_fst] at hth
  obtain ⟨anc, mates, hshape, hmates⟩ :=
    detectAux_shape (winMin * 60 * 1000000) (read_tweets now rows) []
      (read_tweets_sorted now rows) th hth
  have hmem : ∀ x ∈ th, x.timestamp ≤ anc.timestamp
      ∧ anc.timestamp ≤ x.timestamp + winMin * 60 * 1000000 := by
    intro x hx
    rw [hshape] at hx
    have hx2 := (List.mem_insertionSort chronLe).mp hx
    rcases List.mem_cons.mp hx2 with rfl | hx3
    · omega
    · have h2 := hmates x hx3
      have h3 := h2.2
      simp only [Nat.dist] at h3
      omega
  have haa := hmem a ha
  have hbb := hmem b hb
  simp only [Nat.dist]
  omega

/-- C3: anchor-field propagation.  Every consolidated record flagged as a
thread is built from an emitted group, and its `tweet_id` and `timestamp`
are the id and raw `created_at` of a group member whose instant is minimal
— the chronologically first member — independent of the posts' input order
and of which member has the smallest id. -/
theorem c3_anchor_fields (now winMin : Nat) (rows : List Row) :
    ∀ cp ∈ consolidate now winMin rows, cp.is_thread = true →
      ∃ th ∈ (detect_threads (winMin * 60 * 1000000) (read_tweets now rows)).1,
        mkThreadPost th = some cp
        ∧ ∃ m ∈ th, cp.tweet_id = m.id ∧ cp.timestamp = m.created_at
            ∧ ∀ u ∈ th, m.timestamp ≤ u.timestamp := by
  intro cp hcp hthread
  have hcp2 : cp ∈ (detect_threads (winMin * 60 * 1000000)
        (read_tweets now rows)).1.filterMap mkThreadPost
      ++ (detect_threads (winMin * 60 * 1000000) (read_tweets now rows)).2.map
        mkStandalonePost := by
    have hper := List.perm_insertionSort (cpostLeDesc now)
      ((detect_threads (winMin * 60 * 1000000)
          (read_tweets now rows)).1.filterMap mkThreadPost
        ++ (detect_threads (winMin * 60 * 1000000) (read_tweets now rows)).2.map
          mkStandalonePost)
    exact hper.subset hcp
  rcases List.mem_append.mp hcp2 with h | h
  · rcases List.mem_filterMap.mp h with ⟨th, hth, hmk⟩
    refine ⟨th, hth, hmk, ?_⟩
    rw [detect_threads_fst] at hth
    obtain ⟨anc, mates, hshape, _⟩ :=
      detectAux_shape (winMin * 60 * 1000000) (read_tweets now rows) []
        (read_tweets_sorted now rows) th hth
    have hsorted : List.Sorted chronLe th := by
      rw [hshape]
      exact List.sorted_insertionSort chronLe (anc :: mates)
    cases th with
    | nil => exact absurd hmk (by simp [mkThreadPost])
    | cons first restth =>
      have hfields : cp.tweet_id = first.id ∧ cp.timestamp = first.created_at := by
        simp only [mkThreadPost, Option.some.injEq] at hmk
        rw [← hmk]
        exact ⟨rfl, rfl⟩
      refine ⟨first, List.mem_cons_self first restth, hfields.1, hfields.2, ?_⟩
      intro u hu
      rcases List.mem_cons.mp hu with rfl | hu2
      · exact le_refl _
      · exact (List.pairwise_cons.mp hsorted).1 u hu2
  · rcases List.mem_map.mp h with ⟨s, _, rfl⟩
    exact absurd hthread (by simp [mkStandalonePost])

/-- C1: partition.  For a valid input set (ids pairwise distinct after the
id/text filter, per the already-deduplicated-by-source input contract),
the members of the emitted threads together with the standalone tweets are
a permutation of the filtered working list — every filtered post appears
in exactly one group and no post twice; threads are never empty; and the
consolidated output holds exactly one record per group (threads mapped by
`mkThreadPost`, standalones by `mkStandalonePost`). -/
theorem c1_partition (now winMin : Nat) (rows : List Row)
    (hnd : ((read_tweets now rows).map (fun u => u.id)).Nodup) :
    ((detect_threads (winMin * 60 * 1000000) (read_tweets now rows)).1.flatten
        ++ (detect_threads (winMin * 60 * 1000000) (read_tweets now rows)).2).Perm
      (read_tweets now rows)
    ∧ (∀ th ∈ (detect_threads (winMin * 60 * 1000000) (read_tweets now rows)).1, th ≠ [])
    ∧ (consolidate now winMin rows).Perm
        ((detect_threads (winMin * 60 * 1000000) (read_tweets now rows)).1.filterMap
            mkThreadPost
          ++ (detect_threads (winMin * 60 * 1000000) (read_tweets now rows)).2.map
            mkStandalonePost) := by
  refine ⟨?_, ?_, ?_⟩
  · have hpart := detectAux_partition (winMin * 60 * 1000000) (read_tweets now rows) [] hnd
    rw [detect_threads_fst, detect_threads_snd]
    have hcongr : ∀ u ∈ read_tweets now rows,
        (decide (u.id ∉ ([] : List String)
            ∧ u.id ∈ (detectAux (winMin * 60 * 1000000) (read_tweets now rows) [] []).2))
          = (decide (u.id ∈ (detectAux (winMin * 60 * 1000000)
              (read_tweets now rows) [] []).2)) := by
      intro u _
      simp
    rw [List.filter_congr hcongr] at hpart
    have hnot : ∀ u ∈ read_tweets now rows,
        (decide (u.id ∉ (detectAux (winMin * 60 * 1000000) (read_tweets now rows) [] []).2))
          = (!(decide (u.id ∈ (detectAux (winMin * 60 * 1000000)
              (read_tweets now rows) [] []).2))) := by
      intro u _
      simp
    rw [List.filter_congr hnot]
    exact (hpart.append_right _).trans (List.filter_append_perm _ (read_tweets now rows))
  · intro th hth
    rw [detect_threads_fst] at hth
    exact (detectAux_members (winMin * 60 * 1000000) (read_tweets now rows) [] th hth).1
  · exact List.perm_insertionSort _ _

/-- Each thread record's id is one of the thread's member ids. -/
theorem mkThreadPost_id_mem : ∀ (th : List Tweet) (cp : CPost),
    mkThreadPost th = some cp → cp.tweet_id ∈ th.map (fun u => u.id) := by
  intro th cp hmk
  cases th with
  | nil => exact absurd hmk (by simp [mkThreadPost])
  | cons first restth =>
    simp only [mkThreadPost, Option.some.injEq] at hmk
    rw [← hmk]
    simp

/-- Choosing one member id per disjoint group preserves distinctness. -/
theorem heads_nodup : ∀ (gs : List (List Tweet)) (sa : List Tweet),
    ((gs.flatten ++ sa).map (fun u => u.id)).Nodup →
    (((gs.filterMap mkThreadPost).map (fun p => p.tweet_id))
        ++ (sa.map (fun t => t.id))).Nodup := by
  intro gs
  induction gs with
  | nil =>
    intro sa hnd
    simpa using hnd
  | cons th gs2 ih =>
    intro sa hnd
    rw [List.flatten_cons, List.append_assoc, List.map_append] at hnd
    have hnd2 := List.nodup_append.mp hnd
    have hdisj := hnd2.2.2
    cases hmk : mkThreadPost th with
    | none =>
      rw [List.filterMap_cons, hmk]
      exact ih sa hnd2.2.1
    | some cp =>
      rw [List.filterMap_cons, hmk, List.map_cons]
      rw [List.cons_append, List.nodup_cons]
      refine ⟨?_, ih sa hnd2.2.1⟩
      intro hin
      have hid : cp.tweet_id ∈ th.map (fun u => u.id) := mkThreadPost_id_mem th cp hmk
      have hin2 : cp.tweet_id ∈ ((gs2.flatten ++ sa).map (fun u => u.id)) := by
        rcases List.mem_append.mp hin with h | h
        · rcases List.mem_map.mp h with ⟨q, hq, hqid⟩
          rcases List.mem_filterMap.mp hq with ⟨th2, hth2, hmk2⟩
          have := mkThreadPost_id_mem th2 q hmk2
          rw [← hqid]
          rcases List.mem_map.mp this with ⟨u, hu, huid⟩
          rw [← huid]
          exact List.mem_map_of_mem _ (List.mem_append_left sa
            (List.mem_flatten.mpr ⟨th2, hth2, hu⟩))
        · rcases List.mem_map.mp h with ⟨u, hu, huid⟩
          rw [← huid]
          exact List.mem_map_of_mem _ (List.mem_append_right _ hu)
      exact hdisj hid hin2

/-- C6 amended: the output stage performs no id-deduplication (see the
counterexample); instead, whenever the filtered posts have pairwise
distinct ids, the emitted records have pairwise-distinct ids because each
record takes its id from a member of its own group and the groups
partition the posts. -/
theorem c6_amended_nodup (now winMin : Nat) (rows : List Row)
    (hnd : ((read_tweets now rows).map (fun u => u.id)).Nodup) :
    ((consolidate now winMin rows).map (fun p => p.tweet_id)).Nodup := by
  have hper : ((consolidate now winMin rows).map (fun p => p.tweet_id)).Perm
      ((((detect_threads (winMin * 60 * 1000000) (read_tweets now rows)).1.filterMap
            mkThreadPost).map (fun p => p.tweet_id))
        ++ (((detect_threads (winMin * 60 * 1000000)
            (read_tweets now rows)).2).map (fun t => t.id))) := by
    have h1 : (consolidate now winMin rows).Perm
        ((detect_threads (winMin * 60 * 1000000) (read_tweets now rows)).1.filterMap
            mkThreadPost
          ++ (detect_threads (winMin * 60 * 1000000) (read_tweets now rows)).2.map
            mkStandalonePost) := List.perm_insertionSort _ _
    have h2 := h1.map (fun p => p.tweet_id)
    rw [List.map_append, List.map_map] at h2
    exact h2
  rw [hper.nodup_iff]
  apply heads_nodup
  have hpart := detectAux_partition (winMin * 60 * 1000000) (read_tweets now rows) [] hnd
  have hsa : (detect_threads (winMin * 60 * 1000000) (read_tweets now rows)).2
      = (read_tweets now rows).filter
          (fun t => decide (t.id ∉ (detectAux (winMin * 60 * 1000000)
            (read_tweets now rows) [] []).2)) := detect_threads_snd _ _
  have hper2 : (((detect_threads (winMin * 60 * 1000000) (read_tweets now rows)).1.flatten
      ++ (detect_threads (winMin * 60 * 1000000) (read_tweets now rows)).2).map
        (fun u => u.id)).Nodup := by
    have hcongr : ∀ u ∈ read_tweets now rows,
        (decide (u.id ∉ ([] : List String)
            ∧ u.id ∈ (detectAux (winMin * 60 * 1000000) (read_tweets now rows) [] []).2))
          = (decide (u.id ∈ (detectAux (winMin * 60 * 1000000)
              (read_tweets now rows) [] []).2)) := by
      intro u _
      simp
    rw [List.filter_congr hcongr] at hpart
    have hnot : ∀ u ∈ read_tweets now rows,
        (decide (u.id ∉ (detectAux (winMin * 60 * 1000000) (read_tweets now rows) [] []).2))
          = (!(decide (u.id ∈ (detectAux (winMin * 60 * 1000000)
              (read_tweets now rows) [] []).2))) := by
      intro u _
      simp
    have hparts : ((detect_threads (winMin * 60 * 1000000) (read_tweets now rows)).1.flatten
        ++ (detect_threads (winMin * 60 * 1000000) (read_tweets now rows)).2).Perm
        (read_tweets now rows) := by
      rw [detect_threads_fst, detect_threads_snd, List.filter_congr hnot]
      exact (hpart.append_right _).trans
        (List.filter_append_perm _ (read_tweets now rows))
    rw [(hparts.map (fun u => u.id)).nodup_iff]
    exact hnd
  rw [detect_threads_fst] at hper2 ⊢
  exact hper2

/-- A record whose id duplicates `rowDupOld`, hours later. -/
def rowDupNew : Row := { tweet_id := "a", created_at := "2025-08-12T12:00:00Z", text := "P" }

/-- The first occurrence of id `a`. -/
def rowDupOld : Row := { tweet_id := "a", created_at := "2025-08-12T09:00:00Z", text := "Q" }

/-- C6 counterexample: the output stage performs no id-deduplication — two
far-apart valid rows with the same id yield two emitted records with equal
ids, so the output does not have pairwise-distinct ids and nothing was
removed. -/
theorem c6_counterexample :
    (consolidate 0 2 [rowDupNew, rowDupOld]).map (fun p => p.tweet_id) = [rowDupNew.tweet_id, rowDupOld.tweet_id]
    ∧ ¬ ((consolidate 0 2 [rowDupNew, rowDupOld]).map (fun p => p.tweet_id)).Nodup := by
  constructor
  · decide
  · decide

/-- C4: order preservation in merge.  When the filtered posts' instants
are pairwise distinct, the consolidated output is independent of the order
in which the input rows arrive, and every thread record's text is the
blank-line-separated (`"\n\n"`) concatenation of its members' texts in
chronological order (the group is chronologically sorted). -/
theorem c4_merge_order (now winMin : Nat) (rows rows2 : List Row)
    (hperm : rows2.Perm rows)
    (hdist : (read_tweets now rows).Pairwise (fun a b => a.timestamp ≠ b.timestamp)) :
    consolidate now winMin rows2 = consolidate now winMin rows
    ∧ ∀ cp ∈ consolidate now winMin rows, cp.is_thread = true →
        ∃ th ∈ (detect_threads (winMin * 60 * 1000000) (read_tweets now rows)).1,
          mkThreadPost th = some cp
          ∧ cp.text = String.intercalate sepNl (th.map (fun t => t.text))
          ∧ List.Sorted chronLe th := by
  constructor
  · have hA : (read_tweets now rows2).Perm (read_tweets now rows) := by
      have hmid : ((rows2.filter validRow).map (mkTweet now)).Perm
          ((rows.filter validRow).map (mkTweet now)) :=
        (hperm.filter validRow).map (mkTweet now)
      exact (read_tweets_perm now rows2).trans
        (hmid.trans (read_tweets_perm now rows).symm)
    have hndk : ((read_tweets now rows).map (fun u => u.timestamp)).Nodup :=
      List.pairwise_map.mpr hdist
    have hndk2 : ((read_tweets now rows2).map (fun u => u.timestamp)).Nodup := by
      rw [(hA.map (fun u => u.timestamp)).nodup_iff]
      exact hndk
    have heq : read_tweets now rows2 = read_tweets now rows := by
      refine eq_of_perm_sorted_nodup_keys (fun u : Tweet => u.timestamp) hA
        ?_ ?_ hndk2
      · exact read_tweets_sorted now rows2
      · exact read_tweets_sorted now rows
    unfold consolidate
    rw [heq]
  · intro cp hcp hthread
    have hcp2 : cp ∈ (detect_threads (winMin * 60 * 1000000)
          (read_tweets now rows)).1.filterMap mkThreadPost
        ++ (detect_threads (winMin * 60 * 1000000) (read_tweets now rows)).2.map
          mkStandalonePost :=
      (List.perm_insertionSort (cpostLeDesc now) _).subset hcp
    rcases List.mem_append.mp hcp2 with h | h
    · rcases List.mem_filterMap.mp h with ⟨th, hth, hmk⟩
      refine ⟨th, hth, hmk, ?_, ?_⟩
      · cases th with
        | nil => exact absurd hmk (by simp [mkThreadPost])
        | cons first restth =>
          simp only [mkThreadPost, Option.some.injEq] at hmk
          rw [← hmk]
          exact combineText_eq_intercalate (first :: restth)
      · rw [detect_threads_fst] at hth
        obtain ⟨anc, mates, hshape, _⟩ :=
          detectAux_shape (winMin * 60 * 1000000) (read_tweets now rows) []
            (read_tweets_sorted now rows) th hth
        rw [hshape]
        exact List.sorted_insertionSort chronLe (anc :: mates)
    · rcases List.mem_map.mp h with ⟨s, _, rfl⟩
      exact absurd hthread (by simp [mkStandalonePost])

/-- A thread record's timestamp text is the `created_at` of one of its
members (the chronologically first). -/
theorem mkThreadPost_head : ∀ (th : List Tweet) (cp : CPost),
    mkThreadPost th = some cp → ∃ f ∈ th, cp.timestamp = f.created_at := by
  intro th cp hmk
  cases th with
  | nil => exact absurd hmk (by simp [mkThreadPost])
  | cons first restth =>
    simp only [mkThreadPost, Option.some.injEq] at hmk
    exact ⟨first, List.mem_cons_self first restth, by rw [← hmk]⟩

/-- C5: output ordering.  (a) The final list is sorted most-recent-first
by the instant obtained by re-parsing each record's emitted timestamp text
with the normalizer; (b) no two output records ever share a re-parsed
instant (tied standalones would have clustered, a thread member's instant
never equals a standalone's, and members of two threads never tie), so the
claimed tie-breaking by original input order holds vacuously; (c) the sort
is stable: for every key value, filtering the output on that key gives
exactly the pre-sort (threads-then-standalones) sublist. -/
theorem c5_output_order (now winMin : Nat) (rows : List Row) :
    List.Sorted (cpostLeDesc now) (consolidate now winMin rows)
    ∧ ((consolidate now winMin rows).map
        (fun p => parse_timestamp now p.timestamp)).Nodup
    ∧ ∀ k : Nat, (consolidate now winMin rows).filter
          (fun p => decide (parse_timestamp now p.timestamp = k))
        = ((detect_threads (winMin * 60 * 1000000) (read_tweets now rows)).1.filterMap
              mkThreadPost
            ++ (detect_threads (winMin * 60 * 1000000) (read_tweets now rows)).2.map
              mkStandalonePost).filter
          (fun p => decide (parse_timestamp now p.timestamp = k)) := by
  refine ⟨List.sorted_insertionSort (cpostLeDesc now) _, ?_, ?_⟩
  · -- pairwise distinct re-parsed instants
    have hper : ((consolidate now winMin rows).map
          (fun p => parse_timestamp now p.timestamp)).Perm
        ((((detect_threads (winMin * 60 * 1000000) (read_tweets now rows)).1.filterMap
              mkThreadPost)
            ++ ((detect_threads (winMin * 60 * 1000000)
                (read_tweets now rows)).2.map mkStandalonePost)).map
          (fun p => parse_timestamp now p.timestamp)) :=
      (List.perm_insertionSort (cpostLeDesc now) _).map _
    rw [hper.nodup_iff, List.map_append, List.nodup_append]
    have hmemtw := detectAux_members (winMin * 60 * 1000000) (read_tweets now rows) []
    have hsorted := read_tweets_sorted now rows
    have hsa : (detect_threads (winMin * 60 * 1000000) (read_tweets now rows)).2
        = (read_tweets now rows).filter
            (fun t => decide (t.id ∉ (detectAux (winMin * 60 * 1000000)
              (read_tweets now rows) [] []).2)) := detect_threads_snd _ _
    have hkey_th : ∀ th ∈ (detect_threads (winMin * 60 * 1000000)
          (read_tweets now rows)).1, ∀ cp : CPost, mkThreadPost th = some cp →
        ∃ f ∈ th, parse_timestamp now cp.timestamp = f.timestamp := by
      intro th hth cp hmk
      rcases mkThreadPost_head th cp hmk with ⟨f, hf, hts⟩
      rw [detect_threads_fst] at hth
      have hftw : f ∈ read_tweets now rows := ((hmemtw th hth).2 f hf).1
      refine ⟨f, hf, ?_⟩
      rw [hts, ← read_tweets_timestamp now rows f hftw]
    have hkey_sa : ∀ s ∈ (detect_threads (winMin * 60 * 1000000)
          (read_tweets now rows)).2,
        parse_timestamp now (mkStandalonePost s).timestamp = s.timestamp := by
      intro s hs
      have hstw : s ∈ read_tweets now rows := by
        rw [hsa] at hs
        exact (List.filter_sublist _).subset hs
      exact (read_tweets_timestamp now rows s hstw).symm
    refine ⟨?_, ?_, ?_⟩
    · -- thread records: distinct keys via the thread-thread separation
      have hpw : List.Pairwise (fun (a b : Nat) => a ≠ b)
          (((detect_threads (winMin * 60 * 1000000)
              (read_tweets now rows)).1.filterMap mkThreadPost).map
            (fun p => parse_timestamp now p.timestamp)) := by
        rw [List.pairwise_map, List.pairwise_filterMap]
        have hB := detectAux_threads_ts_pairwise (winMin * 60 * 1000000)
          (read_tweets now rows) [] hsorted
        rw [← detect_threads_fst] at hB
        refine hB.imp_of_mem ?_
        intro th1 th2 hth1 hth2 hR cp1 hmk1 cp2 hmk2
        rcases hkey_th th1 hth1 cp1 hmk1 with ⟨f1, hf1, hk1⟩
        rcases hkey_th th2 hth2 cp2 hmk2 with ⟨f2, hf2, hk2⟩
        rw [hk1, hk2]
        exact hR f1 hf1 f2 hf2
      exact hpw
    · -- standalone records: distinct keys via the window separation
      have hpw : List.Pairwise (fun (a b : Nat) => a ≠ b)
          ((((detect_threads (winMin * 60 * 1000000)
              (read_tweets now rows)).2).map mkStandalonePost).map
            (fun p => parse_timestamp now p.timestamp)) := by
        rw [List.pairwise_map, List.pairwise_map]
        have hSA := detectAux_standalone_pairwise (winMin * 60 * 1000000)
          (read_tweets now rows) [] hsorted
        rw [← detect_threads_snd] at hSA
        refine hSA.imp_of_mem ?_
        intro s v hsmem hvmem hR
        rw [hkey_sa s hsmem, hkey_sa v hvmem]
        intro h
        rw [h, Nat.dist_self] at hR
        omega
      exact hpw
    · -- a thread record never shares a key with a standalone record
      intro k hk1 hk2
      rcases List.mem_map.mp hk1 with ⟨cp1, hcp1, hkcp1⟩
      rcases List.mem_filterMap.mp hcp1 with ⟨th, hth, hmk⟩
      rcases List.mem_map.mp hk2 with ⟨cp2, hcp2, hkcp2⟩
      rcases List.mem_map.mp hcp2 with ⟨s, hsmem, rfl⟩
      rcases hkey_th th hth cp1 hmk with ⟨f, hf, hk1f⟩
      have hsfacts : s ∈ read_tweets now rows
          ∧ s.id ∉ (detectAux (winMin * 60 * 1000000)
              (read_tweets now rows) [] []).2 := by
        rw [hsa] at hsmem
        have h1 := List.mem_filter.mp hsmem
        refine ⟨h1.1, ?_⟩
        have h2 := h1.2
        simpa using h2
      have hA := detectAux_thread_standalone_ts (winMin * 60 * 1000000)
        (read_tweets now rows) [] hsorted th
        (by rw [detect_threads_fst] at hth; exact hth) f hf s hsfacts.1 hsfacts.2
      apply hA
      rw [← hk1f, hkcp1, ← hkey_sa s hsmem, hkcp2]
  · -- stability of the final sort
    intro k
    exact filter_key_insertionSort (cpostLeDesc now)
      (fun p => parse_timestamp now p.timestamp) (fun x y => Iff.rfl) k _

/-- The empty timestamp string. -/
def emptyStr : String := ""

/-- TwitterAPI.io-format fixture with a UTC offset. -/
def tsTwitterUtc : String := "Tue Aug 12 13:11:03 +0000 2025"

/-- The same clock fields with a different offset: the parsed instant must
not change, because the offset is dropped, not applied. -/
def tsTwitterOffset : String := "Tue Aug 12 13:11:03 -0530 2025"

/-- ISO fixture with fractional seconds. -/
def tsIsoFrac : String := "2025-08-12T13:11:03.000Z"

/-- ISO fixture without fractional seconds. -/
def tsIsoPlain : String := "2025-08-12T13:11:03Z"

/-- A string none of the three formats parses. -/
def tsGarbage : String := "not a timestamp"

/-- C7: the timestamp normalizer tries exactly three formats in fixed
priority order — platform-native weekday/month/day/time/zone/year, ISO-8601
with fractional seconds and `Z`, ISO-8601 without fractional seconds —
returns the first successful parse with the timezone offset dropped rather
than applied (the two offset fixtures parse to the same instant), and
falls back to the wall clock (`now`) on an empty or unparseable input.  It
is total, so it never raises. -/
theorem c7_parse_priority :
    (∀ now : Nat, parse_timestamp now emptyStr = now)
    ∧ (∀ (now : Nat) (s : String), fmtTwitter s = none → fmtIsoFrac s = none →
        fmtIsoNoFrac s = none → parse_timestamp now s = now)
    ∧ (∀ (now t : Nat) (s : String), fmtTwitter s = some t →
        parse_timestamp now s = t)
    ∧ (∀ (now t : Nat) (s : String), fmtTwitter s = none → fmtIsoFrac s = some t →
        parse_timestamp now s = t)
    ∧ (∀ (now t : Nat) (s : String), fmtTwitter s = none → fmtIsoFrac s = none →
        fmtIsoNoFrac s = some t → parse_timestamp now s = t)
    ∧ fmtTwitter tsTwitterUtc = some 63890601063000000
    ∧ fmtTwitter tsTwitterOffset = some 63890601063000000
    ∧ fmtIsoFrac tsIsoFrac = some 63890601063000000
    ∧ fmtIsoNoFrac tsIsoPlain = some 63890601063000000 := by
  refine ⟨?_, ?_, ?_, ?_, ?_, by decide, by decide, by decide, by decide⟩
  · intro now
    rfl
  · intro now s h1 h2 h3
    by_cases hs : s = ""
    · subst hs
      rfl
    · simp only [parse_timestamp, if_neg hs, h1, h2, h3]
  · intro now t s h1
    by_cases hs : s = ""
    · subst hs
      have h0 : fmtTwitter emptyStr = none := rfl
      exact Option.noConfusion (h0.symm.trans h1)
    · simp only [parse_timestamp, if_neg hs, h1]
  · intro now t s h1 h2
    by_cases hs : s = ""
    · subst hs
      have h0 : fmtIsoFrac emptyStr = none := rfl
      exact Option.noConfusion (h0.symm.trans h2)
    · simp only [parse_timestamp, if_neg hs, h1, h2]
  · intro now t s h1 h2 h3
    by_cases hs : s = ""
    · subst hs
      have h0 : fmtIsoNoFrac emptyStr = none := rfl
      exact Option.noConfusion (h0.symm.trans h3)
    · simp only [parse_timestamp, if_neg hs, h1, h2, h3]

/-- C7 witness: each branch of the normalizer exercised on concrete
inputs. -/
theorem c7_parse_priority_witness :
    parse_timestamp 777 tsGarbage = 777
    ∧ parse_timestamp 777 tsTwitterUtc = 63890601063000000
    ∧ parse_timestamp 777 tsTwitterOffset = 63890601063000000
    ∧ parse_timestamp 777 tsIsoFrac = 63890601063000000
    ∧ parse_timestamp 777 tsIsoPlain = 63890601063000000 :=
  ⟨c7_parse_priority.2.1 777 tsGarbage (by decide) (by decide) (by decide),
   c7_parse_priority.2.2.1 777 63890601063000000 tsTwitterUtc (by decide),
   c7_parse_priority.2.2.1 777 63890601063000000 tsTwitterOffset (by decide),
   c7_parse_priority.2.2.2.1 777 63890601063000000 tsIsoFrac (by decide) (by decide),
   c7_parse_priority.2.2.2.2.1 777 63890601063000000 tsIsoPlain (by decide) (by decide)
     (by decide)⟩

/-- A timestamp text at least one of the three formats parses. -/
def parseable (s : String) : Bool :=
  (fmtTwitter s).isSome || (fmtIsoFrac s).isSome || (fmtIsoNoFrac s).isSome

/-- On parseable text the normalizer never consults the clock. -/
theorem parse_timestamp_now_congr (s : String) (h : parseable s = true)
    (n1 n2 : Nat) : parse_timestamp n1 s = parse_timestamp n2 s := by
  by_cases hs : s = ""
  · subst hs
    exact absurd h (by decide)
  · simp only [parse_timestamp, if_neg hs]
    cases h3 : fmtTwitter s with
    | some t => rfl
    | none =>
      cases h4 : fmtIsoFrac s with
      | some t => rfl
      | none =>
        cases h5 : fmtIsoNoFrac s with
        | some t => rfl
        | none =>
          exfalso
          rw [parseable, h3, h4, h5] at h
          simp at h

/-- `orderedInsert` only looks at the relation on the inserted element and
the list members. -/
theorem orderedInsert_rel_congr {α : Type} (r1 r2 : α → α → Prop)
    [DecidableRel r1] [DecidableRel r2] (a : α) :
    ∀ l : List α, (∀ b ∈ l, r1 a b ↔ r2 a b) →
      List.orderedInsert r1 a l = List.orderedInsert r2 a l := by
  intro l
  induction l with
  | nil => intro _; rfl
  | cons b t ih =>
    intro hiff
    have hb := hiff b (List.mem_cons_self b t)
    by_cases h : r1 a b
    · simp only [List.orderedInsert, if_pos h, if_pos (hb.mp h)]
    · simp only [List.orderedInsert, if_neg h, if_neg (fun h2 => h (hb.mpr h2))]
      rw [ih (fun c hc => hiff c (List.mem_cons_of_mem b hc))]

/-- Insertion sort only looks at the relation on list members. -/
theorem insertionSort_rel_congr {α : Type} (r1 r2 : α → α → Prop)
    [DecidableRel r1] [DecidableRel r2] :
    ∀ l : List α, (∀ a ∈ l, ∀ b ∈ l, r1 a b ↔ r2 a b) →
      List.insertionSort r1 l = List.insertionSort r2 l := by
  intro l
  induction l with
  | nil => intro _; rfl
  | cons a t ih =>
    intro hiff
    simp only [List.insertionSort]
    rw [ih (fun x hx y hy => hiff x (List.mem_cons_of_mem a hx)
      y (List.mem_cons_of_mem a hy))]
    apply orderedInsert_rel_congr
    intro b hb
    have hbt : b ∈ t := (List.mem_insertionSort r2).mp hb
    exact hiff a (List.mem_cons_self a t) b (List.mem_cons_of_mem a hbt)

/-- A record with an unparseable timestamp. -/
def rowGarbage : Row := { tweet_id := "g", created_at := "nonsense", text := "G" }

/-- A record whose timestamp parses to noon. -/
def rowNoon : Row := { tweet_id := "n", created_at := "2025-08-12T12:00:00Z", text := "N" }

/-- The instant `rowNoon` parses to. -/
def noonInstant : Nat := parse_timestamp 0 rowNoon.created_at

/-- C9 counterexample: with an unparseable timestamp in the input, the
fallback to the wall clock makes the output depend on the invocation time —
run at noon the garbage post clusters with the noon post, run at epoch it
does not. -/
theorem c9_counterexample :
    consolidate noonInstant 2 [rowGarbage, rowNoon]
      ≠ consolidate 0 2 [rowGarbage, rowNoon] := by
  decide

/-- C9 amended: when every row's timestamp parses in one of the three
formats (no wall-clock fallback), the engine is a function of the input
alone — two invocations at different clock readings give identical
output. -/
theorem c9_amended (winMin now1 now2 : Nat) (rows : List Row)
    (hp : ∀ r ∈ rows, parseable r.created_at = true) :
    consolidate now1 winMin rows = consolidate now2 winMin rows
    ∧ process_posts now1 winMin rows = process_posts now2 winMin rows := by
  have hmk : ∀ r ∈ rows, mkTweet now1 r = mkTweet now2 r := by
    intro r hr
    unfold mkTweet
    rw [parse_timestamp_now_congr r.created_at (hp r hr) now1 now2]
  have hrt : read_tweets now1 rows = read_tweets now2 rows := by
    unfold read_tweets
    rw [List.map_congr_left hmk]
  have htw : ∀ u ∈ read_tweets now1 rows, parseable u.created_at = true := by
    intro u hu
    rcases List.mem_map.mp ((read_tweets_perm now1 rows).subset hu) with ⟨r, hr, rfl⟩
    exact hp r ((List.filter_sublist rows).subset hr)
  have hcon : consolidate now1 winMin rows = consolidate now2 winMin rows := by
    have e1 : consolidate now1 winMin rows = create_consolidated_posts now1
        (detect_threads (winMin * 60 * 1000000) (read_tweets now1 rows)).1
        (detect_threads (winMin * 60 * 1000000) (read_tweets now1 rows)).2 := rfl
    have e2 : consolidate now2 winMin rows = create_consolidated_posts now2
        (detect_threads (winMin * 60 * 1000000) (read_tweets now2 rows)).1
        (detect_threads (winMin * 60 * 1000000) (read_tweets now2 rows)).2 := rfl
    rw [e1, e2, ← hrt]
    have hbase : ∀ cp ∈ (detect_threads (winMin * 60 * 1000000)
          (read_tweets now1 rows)).1.filterMap mkThreadPost
        ++ (detect_threads (winMin * 60 * 1000000) (read_tweets now1 rows)).2.map
          mkStandalonePost,
        parse_timestamp now1 cp.timestamp = parse_timestamp now2 cp.timestamp := by
      intro cp hcp
      rcases List.mem_append.mp hcp with h | h
      · rcases List.mem_filterMap.mp h with ⟨th, hth, hmk2⟩
        rcases mkThreadPost_head th cp hmk2 with ⟨f, hf, hts⟩
        rw [detect_threads_fst] at hth
        have hftw : f ∈ read_tweets now1 rows :=
          ((detectAux_members (winMin * 60 * 1000000)
            (read_tweets now1 rows) [] th hth).2 f hf).1
        rw [hts]
        exact parse_timestamp_now_congr f.created_at (htw f hftw) now1 now2
      · rcases List.mem_map.mp h with ⟨s, hsmem, rfl⟩
        rw [detect_threads_snd] at hsmem
        have hstw : s ∈ read_tweets now1 rows :=
          (List.filter_sublist _).subset hsmem
        exact parse_timestamp_now_congr s.created_at (htw s hstw) now1 now2
    unfold create_consolidated_posts
    apply insertionSort_rel_congr
    intro a ha b hb
    unfold cpostLeDesc
    rw [hbase a ha, hbase b hb]
  refine ⟨hcon, ?_⟩
  unfold process_posts
  rw [hrt, hcon]

/-- C9 witness: a parseable input consolidated at two different clock
readings. -/
theorem c9_amended_witness :
    consolidate 5 2 [rowNoon, rowX] = consolidate 999 2 [rowNoon, rowX] :=
  (c9_amended 2 5 999 [rowNoon, rowX] (by decide)).1

/-- Spec scenario fixture: newest post of the three-post burst. -/
def rowF5 : Row := { tweet_id := "5", created_at := "2025-08-12T12:05:00Z", text := "t5" }

def rowF4 : Row := { tweet_id := "4", created_at := "2025-08-12T12:04:00Z", text := "t4" }

def rowF3 : Row := { tweet_id := "3", created_at := "2025-08-12T12:03:00Z", text := "t3" }

def rowF2 : Row := { tweet_id := "2", created_at := "2025-08-12T10:00:00Z", text := "t2" }

def rowF1 : Row := { tweet_id := "1", created_at := "2025-08-12T09:00:00Z", text := "t1" }

/-- The five-post concrete scenario of the spec. -/
def rowsFive : List Row := [rowF5, rowF4, rowF3, rowF2, rowF1]

/-- C1 witness: the spec's five-post scenario has distinct ids and the
thread members plus standalones repartition the working list. -/
theorem c1_partition_witness :
    ((read_tweets 0 rowsFive).map (fun u => u.id)).Nodup
    ∧ ((detect_threads (2 * 60 * 1000000) (read_tweets 0 rowsFive)).1.flatten
        ++ (detect_threads (2 * 60 * 1000000) (read_tweets 0 rowsFive)).2).Perm
      (read_tweets 0 rowsFive) :=
  ⟨by decide, (c1_partition 0 2 rowsFive (by decide)).1⟩

/-- Anchor-id scenario: middle post in time carries the smallest id. -/
def rowMidB : Row := { tweet_id := "1", created_at := "2025-08-12T12:00:10Z", text := "B" }

/-- The chronologically earliest post of the anchor-id scenario. -/
def rowMidA : Row := { tweet_id := "2", created_at := "2025-08-12T12:00:00Z", text := "A" }

/-- The chronologically last post of the anchor-id scenario. -/
def rowMidC : Row := { tweet_id := "3", created_at := "2025-08-12T12:00:20Z", text := "C" }

/-- The anchor-id scenario input, scrambled. -/
def midRows : List Row := [rowMidB, rowMidA, rowMidC]

/-- The single consolidated record the anchor-id scenario emits: id and
timestamp of the chronologically earliest member (id `2`), not the
smallest id (`1`). -/
def cpMid : CPost :=
  { tweet_id := "2"
    timestamp := "2025-08-12T12:00:00Z"
    text := "A\n\nB\n\nC"
    is_thread := true
    thread_count := 3 }

/-- C3 witness: the anchor-id propagation scenario. -/
theorem c3_anchor_fields_witness :
    (cpMid ∈ consolidate 0 2 midRows ∧ cpMid.is_thread = true)
    ∧ ∃ th ∈ (detect_threads (2 * 60 * 1000000) (read_tweets 0 midRows)).1,
        mkThreadPost th = some cpMid
        ∧ ∃ m ∈ th, cpMid.tweet_id = m.id ∧ cpMid.timestamp = m.created_at
            ∧ ∀ u ∈ th, m.timestamp ≤ u.timestamp :=
  ⟨⟨by decide, by decide⟩, c3_anchor_fields 0 2 midRows cpMid (by decide) (by decide)⟩

/-- C4 witness: scrambled insertion order yields the same output, and the
merged text reads chronologically. -/
theorem c4_merge_order_witness :
    ([rowMidB, rowMidC, rowMidA].Perm [rowMidA, rowMidB, rowMidC]
      ∧ (read_tweets 0 [rowMidA, rowMidB, rowMidC]).Pairwise
          (fun a b => a.timestamp ≠ b.timestamp))
    ∧ consolidate 0 2 [rowMidB, rowMidC, rowMidA]
        = consolidate 0 2 [rowMidA, rowMidB, rowMidC]
    ∧ (consolidate 0 2 [rowMidA, rowMidB, rowMidC]).map (fun p => p.text)
        = [cpMid.text] :=
  ⟨⟨by decide, by decide⟩,
   (c4_merge_order 0 2 [rowMidA, rowMidB, rowMidC] [rowMidB, rowMidC, rowMidA]
     (by decide) (by decide)).1,
   by decide⟩

/-- C6 witness: with distinct input ids the emitted ids stay distinct. -/
theorem c6_amended_nodup_witness :
    ((read_tweets 0 [rowX, rowY121]).map (fun u => u.id)).Nodup
    ∧ ((consolidate 0 2 [rowX, rowY121]).map (fun p => p.tweet_id)).Nodup :=
  ⟨by decide, c6_amended_nodup 0 2 [rowX, rowY121] (by decide)⟩

/-- C8 witness: an all-invalid input errors with the exact message, a
one-valid-row input succeeds. -/
theorem c8_no_data_iff_witness :
    process_posts 0 2 ([] : List Row) = Except.error noDataMsg
    ∧ process_posts 0 2 [rowX] = Except.ok (consolidate 0 2 [rowX]) := by
  constructor
  · rcases (c8_no_data_iff 0 2 []).1.mpr (by decide) with ⟨e, he⟩
    have h2 := (c8_no_data_iff 0 2 []).2.1 e he
    rw [he, h2]
  · exact (c8_no_data_iff 0 2 [rowX]).2.2 (by decide)

/-- C10 witness: the boundary thread's two members are one window apart. -/
theorem c10_thread_span_witness :
    Nat.dist (mkTweet 0 rowX).timestamp (mkTweet 0 rowY120).timestamp
      ≤ 2 * 60 * 1000000 :=
  c10_thread_span 0 2 [rowX, rowY120]
    [mkTweet 0 rowX, mkTweet 0 rowY120] (by decide)
    (mkTweet 0 rowX) (by decide) (mkTweet 0 rowY120) (by decide)
